import Mathlib

/-!
Verification of the entity-resolution / merge core of the football-database
repository (file auto_generate_json.py).

Strings are modelled as lists of characters (Str).  Python's str.lower is
modelled by Char.toLower (ASCII case folding), the regex class \s by
Char-whitespace (space, tab, CR, LF) and the class \w by
alphanumeric-or-underscore; all concrete inputs appearing in the claims are
ASCII, where these models agree with Python.  Python floats produced by true
division are modelled as exact rationals.  Python dicts (insertion ordered,
unique keys, update-in-place) are modelled as association lists with an
update-or-append assignment.  The only fallible operation in the core is the
subscript master_players[key] (a potential KeyError when the name index is
dangling), so add_or_merge_player returns an Option.
-/

namespace FootballDB

abbrev Str := List Char

def str (s : String) : Str := s.toList

/-- Model of the regex class \s (Python whitespace, ASCII fragment). -/
def isSpace (c : Char) : Bool := c = ' ' || c = '\t' || c = '\n' || c = '\r'

/-- Model of the regex class \w (Python word character, ASCII fragment). -/
def isWordChar (c : Char) : Bool := c.isAlphanum || c = '_'

/-- Python str.lower (ASCII case folding). -/
def pyLower (s : Str) : Str := s.map Char.toLower

/-- Python str.strip(): remove leading and trailing whitespace. -/
def pyStrip (s : Str) : Str :=
  ((s.dropWhile (isSpace ·)).reverse.dropWhile (isSpace ·)).reverse

/-- Python re.sub(r"\s+", " ", s): collapse every run of whitespace into a
single space. -/
def collapseWS : Str → Str
  | [] => []
  | [c] => if isSpace c then [' '] else [c]
  | c1 :: c2 :: t =>
    if isSpace c1 then
      if isSpace c2 then collapseWS (c2 :: t)
      else ' ' :: collapseWS (c2 :: t)
    else c1 :: collapseWS (c2 :: t)

/-- Python re.sub(r"[^\w\s]", "", s): delete every character that is neither
a word character nor whitespace. -/
def removeNonWordSpace (s : Str) : Str :=
  s.filter (fun c => isWordChar c || isSpace c)

/-- Source function normalize (auto_generate_json.py, lines 44-50):
lowercase, strip, collapse whitespace runs, then delete punctuation. -/
def normalize (s : Str) : Str :=
  if s = [] then []
  else removeNonWordSpace (collapseWS (pyStrip (pyLower s)))

/-- Helper for tokens: Python str.split() (split on whitespace runs,
dropping empty pieces), written with an accumulator. -/
def splitWSAux : Str → Str → List Str
  | [], acc => if acc = [] then [] else [acc.reverse]
  | c :: t, acc =>
    if isSpace c then
      if acc = [] then splitWSAux t [] else acc.reverse :: splitWSAux t []
    else splitWSAux t (c :: acc)

/-- Source function tokens (lines 52-53): normalize(s).split(), nonempty
pieces only. -/
def tokens (s : Str) : List Str := splitWSAux (normalize s) []

/-- Source function token_overlap_score (lines 55-60): Jaccard-style overlap
of the token sets, 0 when both token sets are empty.  The true division
len(sa & sb) / max(1, len(sa | sb)) is written with Rat.divInt (the same
rational) so that the kernel can evaluate it; the lemma
token_overlap_score_eq_div below restates it with the division symbol. -/
def token_overlap_score (a b : Str) : ℚ :=
  let sa := (tokens a).toFinset
  let sb := (tokens b).toFinset
  if sa = ∅ ∧ sb = ∅ then 0
  else Rat.divInt ((sa ∩ sb).card : ℤ) ((max 1 (sa ∪ sb).card : ℕ) : ℤ)

theorem token_overlap_score_eq_div (a b : Str) :
    token_overlap_score a b =
      if (tokens a).toFinset = ∅ ∧ (tokens b).toFinset = ∅ then 0
      else (((tokens a).toFinset ∩ (tokens b).toFinset).card : ℚ) /
        ((max 1 ((tokens a).toFinset ∪ (tokens b).toFinset).card : ℕ) : ℚ) := by
  rw [token_overlap_score]
  split
  case isTrue h => simp [h]
  case isFalse h =>
    rw [Rat.divInt_eq_div]
    simp

/-! ### The Levenshtein dynamic program (lines 62-82)

The source builds the full (la+1) × (lb+1) table dp with dp[i][0] = i,
dp[0][j] = j and dp[i][j] = min(dp[i-1][j]+1, dp[i][j-1]+1,
dp[i-1][j-1]+cost); row i is computed from row i-1 left to right.  levNext
produces the entries dp[i][1..lb] of one row (walking b together with the
previous row), levStepRow prepends dp[i][0] = i, and levFoldRows folds the
row step over the characters of a.  The distance is the last entry of the
last row. -/

def levNext (ai : Char) : Str → List Nat → Nat → Nat → List Nat
  | [], _, _, _ => []
  | _ :: _, [], _, _ => []
  | y :: ys, up :: ups, diag, left =>
    let c := min (up + 1) (min (left + 1) (diag + (if ai = y then 0 else 1)))
    c :: levNext ai ys ups up c

def levStepRow (b : Str) (prev : List Nat) (ai : Char) (i : Nat) : List Nat :=
  i :: levNext ai b (prev.drop 1) (prev.headD 0) i

def levFoldRows (b : Str) : Str → List Nat → Nat → List Nat
  | [], prev, _ => prev
  | x :: xs, prev, i => levFoldRows b xs (levStepRow b prev x i) (i + 1)

def levDist (a b : Str) : Nat :=
  (levFoldRows b a (List.range (b.length + 1)) 1).getLastD 0

/-- Source function levenshtein_ratio (lines 62-82): normalize both strings,
1.0 on equality, 0.0 when either normalized string is empty, otherwise
1 - dist / max(la, lb).  The latter is written over the common denominator
max(la, lb) (the same rational, proved by levenshtein_ratio_eq_div below)
so that the kernel can evaluate it. -/
def levenshtein_ratio (a0 b0 : Str) : ℚ :=
  let a := normalize a0
  let b := normalize b0
  if a = b then 1
  else
    let la := a.length
    let lb := b.length
    if la = 0 || lb = 0 then 0
    else Rat.divInt ((max la lb : ℤ) - (levDist a b : ℤ)) ((max la lb : ℕ) : ℤ)

/-- The classic unit-cost Levenshtein distance (insertion, deletion,
substitution), stated by the spec; the table of the source program is
proved equal to it below. -/
def levClassic : Str → Str → Nat
  | [], b => b.length
  | a, [] => a.length
  | x :: xs, y :: ys =>
    min (levClassic xs (y :: ys) + 1)
      (min (levClassic (x :: xs) ys + 1)
        (levClassic xs ys + if x = y then 0 else 1))
termination_by a b => a.length + b.length

/-! ### Decimal rendering, slug generation -/

def natToDecAux : Nat → Nat → Str
  | 0, _ => []
  | fuel + 1, n =>
    if n < 10 then [Nat.digitChar n]
    else natToDecAux fuel (n / 10) ++ [Nat.digitChar (n % 10)]

/-- Decimal rendering of a natural number (Python f-string of an int). -/
def natToDec (n : Nat) : Str := natToDecAux (n + 1) n

/-- Python re.sub(r"[^\w]+", "_", s): replace every run of non-word
characters (note: including spaces) with a single underscore. -/
def slugify : Str → Str
  | [] => []
  | [c] => if isWordChar c then [c] else ['_']
  | c1 :: c2 :: t =>
    if isWordChar c1 then c1 :: slugify (c2 :: t)
    else if isWordChar c2 then '_' :: slugify (c2 :: t)
    else slugify (c2 :: t)

/-- The i-th candidate tried by the uniqueness loop of
add_or_merge_player (lines 330-334): the base slug itself for i = 1, then
base_2, base_3, ... -/
def slugCandidate (base : Str) (i : Nat) : Str :=
  if i = 1 then base else base ++ '_' :: natToDec i

/-- The while loop at lines 331-334, with enough fuel to reach a fresh
candidate (freshSlug_not_mem below proves keys.length + 1 attempts always
suffice, so the fuel never runs out on the loop's reachable inputs). -/
def slugLoop (keys : List Str) (base : Str) : Nat → Nat → Str
  | 0, i => slugCandidate base i
  | fuel + 1, i =>
    if slugCandidate base i ∈ keys then slugLoop keys base fuel (i + 1)
    else slugCandidate base i

def freshSlug (keys : List Str) (base : Str) : Str :=
  slugLoop keys base (keys.length + 1) 1

/-! ### Python dicts as insertion-ordered association lists -/

abbrev AList (α : Type) := List (Str × α)

/-- Dict lookup d.get(k). -/
def aget {α : Type} : AList α → Str → Option α
  | [], _ => none
  | (k', v) :: t, k => if k' = k then some v else aget t k

/-- Dict assignment d[k] = v: update in place, or append a new key. -/
def aset {α : Type} : AList α → Str → α → AList α
  | [], k, v => [(k, v)]
  | (k', v') :: t, k, v =>
    if k' = k then (k, v) :: t else (k', v') :: aset t k v

def akeys {α : Type} (l : AList α) : List Str := l.map (·.1)

/-- A CSV row: an ordered mapping from column name to string value. -/
abbrev Row := AList Str

/-- row.get(k, "") — Python's row.get(k) returns None for a missing key,
and every use in the source treats None and "" alike, so both are
modelled as []. -/
def rowGet (row : Row) (k : Str) : Str := (aget row k).getD []

/-- Python x or y on strings (empty string is falsy). -/
def pyOr (a b : Str) : Str := if a = [] then b else a

/-! ### Entity matcher: best_name_match (lines 84-116) -/

/-- The exact-normalized-name loop (lines 92-94): first candidate whose
normalized canonical name equals the normalized query. -/
def exactFind (n : Str) : List (Str × Str) → Option Str
  | [] => none
  | (k, canon) :: t => if normalize canon = n then some k else exactFind n t

/-- The argmax loops of lines 96-103 and 106-113: starting from
best = None, best_score = 0.0, update on strict improvement. -/
def scanBestAux (score : Str → ℚ) :
    List (Str × Str) → Option Str → ℚ → Option Str × ℚ
  | [], best, bs => (best, bs)
  | (k, canon) :: t, best, bs =>
    if score canon > bs then scanBestAux score t (some k) (score canon)
    else scanBestAux score t best bs

/-- Source function best_name_match (lines 84-116): cascade of
exact-normalized-name, token-overlap (threshold 0.6) and Levenshtein-ratio
(threshold 0.78) passes over the candidate dict in iteration order. -/
def best_name_match (name : Str) (candidates : List (Str × Str))
    (token_thresh lev_thresh : ℚ) : Option Str :=
  let n := normalize name
  if n = [] then none
  else
    match exactFind n candidates with
    | some k => some k
    | none =>
      let tb := scanBestAux (fun canon => token_overlap_score n canon) candidates none 0
      if tb.2 ≥ token_thresh then tb.1
      else
        let lb := scanBestAux (fun canon => levenshtein_ratio n canon) candidates none 0
        if lb.2 ≥ lev_thresh then lb.1 else none

/-! ### Canonical player record and the merge engine (lines 251-381)

Only the parts of the 10-panel structure that add_or_merge_player reads or
writes are modelled: the identitas_dasar fields set by set_if_present plus
player_id and kewarganegaraan, the two nilai_pasar fields, and the
sumber_data.origins provenance map.  The panels the merge never touches
(transfer, cedera, statistik_performa, ...) are constants of
make_blank_player and carry no information for the claims. -/

structure Identitas where
  player_id : Str
  nama_lengkap : Str
  nama_panggilan : Str
  tanggal_lahir : Str
  usia : Str
  tinggi_badan_cm : Str
  berat_badan_kg : Str
  posisi_utama : Str
  kaki_dominan : Str
  klub_saat_ini : Str
  nomor_punggung : Str
  kontrak_mulai : Str
  kontrak_berakhir : Str
  kewarganegaraan : List Str
deriving DecidableEq

structure Player where
  identitas_dasar : Identitas
  nilai_terkini_eur : Str
  update_terakhir : Str
  origins : AList (List Row)
deriving DecidableEq

/-- Source function make_blank_player (lines 251-298), restricted to the
modelled fields: everything empty. -/
def make_blank_player : Player :=
  { identitas_dasar :=
      { player_id := [], nama_lengkap := [], nama_panggilan := []
        tanggal_lahir := [], usia := [], tinggi_badan_cm := []
        berat_badan_kg := [], posisi_utama := [], kaki_dominan := []
        klub_saat_ini := [], nomor_punggung := [], kontrak_mulai := []
        kontrak_berakhir := [], kewarganegaraan := [] }
    nilai_terkini_eur := [], update_terakhir := [], origins := [] }

/-- A freshly created master entry: blank player with player_id set
(lines 315-316 and 336-337). -/
def blankWithId (pid : Str) : Player :=
  { make_blank_player with
    identitas_dasar := { make_blank_player.identitas_dasar with player_id := pid } }

/-- set_if_present (lines 342-346): overwrite only with a non-empty new
value. -/
def setIf (cur v : Str) : Str := if v ≠ [] then v else cur

/-- Python nat.split(",") keeping empty pieces (they are filtered after
stripping). -/
def splitCommaAux : Str → Str → List Str
  | [], acc => [acc.reverse]
  | c :: t, acc =>
    if c = ',' then acc.reverse :: splitCommaAux t []
    else splitCommaAux t (c :: acc)

/-- Line 365: [x.strip() for x in nat.split(",") if x.strip()]. -/
def parseNationality (nat : Str) : List Str :=
  ((splitCommaAux nat []).map pyStrip).filter (fun x => x ≠ [])

/-- The set_if_present block of lines 347-365 over identitas_dasar.
player_id is not among the merged fields. -/
def mergeIdentitas (idd : Identitas) (row : Row) : Identitas :=
  { idd with
    nama_lengkap := setIf idd.nama_lengkap (rowGet row (str "player_name"))
    nama_panggilan := setIf idd.nama_panggilan (rowGet row (str "known_as"))
    tanggal_lahir := setIf idd.tanggal_lahir (rowGet row (str "date_of_birth"))
    usia := setIf idd.usia (rowGet row (str "age"))
    tinggi_badan_cm := setIf idd.tinggi_badan_cm (rowGet row (str "height"))
    berat_badan_kg := setIf idd.berat_badan_kg (rowGet row (str "weight"))
    posisi_utama := setIf idd.posisi_utama (rowGet row (str "position"))
    kaki_dominan := setIf idd.kaki_dominan (rowGet row (str "foot"))
    klub_saat_ini := setIf idd.klub_saat_ini (rowGet row (str "current_club"))
    nomor_punggung := setIf idd.nomor_punggung (rowGet row (str "shirt_number"))
    kontrak_mulai := setIf idd.kontrak_mulai (rowGet row (str "contract_start"))
    kontrak_berakhir := setIf idd.kontrak_berakhir (rowGet row (str "contract_expiry"))
    kewarganegaraan :=
      let nat := pyOr (rowGet row (str "citizenship")) (rowGet row (str "nationality"))
      if nat ≠ [] then parseNationality nat else idd.kewarganegaraan }

/-- Line 377: the raw row filtered to its non-empty values, as appended to
provenance. -/
def filterRow (row : Row) : Row := row.filter (fun kv => kv.2 ≠ [])

/-- The field-merge part of add_or_merge_player (lines 338-377): identity
fields, market value, last update, provenance append. -/
def mergeRow (p : Player) (row : Row) : Player :=
  let mv := pyOr (rowGet row (str "market_value_in_eur")) (rowGet row (str "market_value"))
  let lu := rowGet row (str "last_market_value_update")
  let srcname := pyOr (pyOr (rowGet row (str "_source_file")) (rowGet row (str "source_file")))
    (str "unknown")
  { identitas_dasar := mergeIdentitas p.identitas_dasar row
    nilai_terkini_eur := if mv ≠ [] then mv else p.nilai_terkini_eur
    update_terakhir := if lu ≠ [] then lu else p.update_terakhir
    origins := aset p.origins srcname ((aget p.origins srcname).getD [] ++ [filterRow row]) }

/-- The two mutable globals of the script: master_players and
name_to_master_key (lines 300-302). -/
structure Store where
  master : AList Player
  nameIdx : AList Str
deriving DecidableEq

def emptyStore : Store := { master := [], nameIdx := [] }

/-- Lines 305-307: extract the id hint and the display name of a row. -/
def rowPid (row : Row) : Str := pyOr (rowGet row (str "player_id")) (rowGet row (str "id"))

def rowPName (row : Row) : Str :=
  pyStrip (pyOr (rowGet row (str "player_name")) (rowGet row (str "name")))

/-- The candidate dict {k: v["identitas_dasar"]["nama_lengkap"]} of
line 323, in master insertion order. -/
def candidatesOf (m : AList Player) : List (Str × Str) :=
  m.map (fun kp => (kp.1, kp.2.identitas_dasar.nama_lengkap))

/-- The light normalization of line 308: pname.lower().strip() — note this
is not the full normalize of lines 44-50. -/
def lightNorm (row : Row) : Str := pyStrip (pyLower (rowPName row))

/-- The base slug of lines 328-331: the ad-hoc slug of the light-normalized
name, or a counter-based placeholder when that is empty. -/
def slugBase (m : AList Player) (row : Row) : Str :=
  let slug0 := slugify (lightNorm row)
  if slug0 = [] then str "player_" ++ natToDec (m.length + 1) else slug0

/-- The key under which a row that matched nothing is created. -/
def newKey (m : AList Player) (row : Row) : Str :=
  freshSlug (akeys m) (slugBase m row)

/-- The key-resolution part of add_or_merge_player (lines 305-337):
id hit, id creation, normalized-name index hit, heuristic name match, or
creation under a fresh slug.  Returns the possibly-extended store and the
resolved key. -/
def resolveKey (st : Store) (row : Row) : Store × Str :=
  let pid := rowPid row
  if pid ≠ [] then
    if (aget st.master pid).isSome then (st, pid)
    else ({ st with master := aset st.master pid (blankWithId pid) }, pid)
  else
    match aget st.nameIdx (lightNorm row) with
    | some k => (st, k)
    | none =>
      match best_name_match (rowPName row) (candidatesOf st.master)
          (Rat.divInt 3 5) (Rat.divInt 39 50) with
      | some k => (st, k)
      | none =>
        let key := newKey st.master row
        ({ st with master := aset st.master key (blankWithId pid) }, key)

/-- Source function add_or_merge_player (lines 304-381).  The subscript
master_players[key] at line 339 is the one fallible operation (a KeyError
when the name index holds a dangling key), hence the Option.  After the
field merge, a non-empty canonical name is (re-)registered in the
normalized-name index (lines 379-380). -/
def add_or_merge_player (st : Store) (row : Row) : Option (Store × Str) :=
  let rk := resolveKey st row
  match aget rk.1.master rk.2 with
  | none => none
  | some target =>
    let t := mergeRow target row
    some
      ({ master := aset rk.1.master rk.2 t
         nameIdx :=
           if t.identitas_dasar.nama_lengkap ≠ [] then
             aset rk.1.nameIdx (normalize t.identitas_dasar.nama_lengkap) rk.2
           else rk.1.nameIdx },
        rk.2)

/-- Ingest a list of rows in order, propagating the only failure. -/
def runRows : Store → List Row → Option Store
  | st, [] => some st
  | st, r :: rs =>
    match add_or_merge_player st r with
    | none => none
    | some (st', _) => runRows st' rs

/-! ## Properties of the text normalizer -/

theorem collapseWS_space_eq : ∀ s : Str, ∀ c ∈ collapseWS s, isSpace c = true → c = ' '
  | [] => by simp [collapseWS]
  | [c0] => by
    intro c hc hsp
    by_cases h : isSpace c0 = true
    · simp [collapseWS, h] at hc
      simp [hc]
    · simp [collapseWS, h] at hc
      subst hc
      simp [h] at hsp
  | c1 :: c2 :: t => by
    intro c hc hsp
    by_cases h1 : isSpace c1 = true
    · by_cases h2 : isSpace c2 = true
      · exact collapseWS_space_eq (c2 :: t) c (by simpa [collapseWS, h1, h2] using hc) hsp
      · simp [collapseWS, h1, h2] at hc
        rcases hc with hc | hc
        · simp [hc]
        · exact collapseWS_space_eq (c2 :: t) c hc hsp
    · simp [collapseWS, h1] at hc
      rcases hc with hc | hc
      · subst hc; simp [h1] at hsp
      · exact collapseWS_space_eq (c2 :: t) c hc hsp

theorem normalize_pipeline (s : Str) :
    normalize s = removeNonWordSpace (collapseWS (pyStrip (pyLower s))) := by
  rw [normalize]
  split
  case isTrue h => subst h; rfl
  case isFalse h => rfl

/-- Claim C6 (amended): normalize lowercases and trims, collapses
whitespace runs to a single space, and then deletes every character that
is neither a word character nor whitespace — in that order, so that the
deletion of punctuation adjacent to the ends can leave a leading or
trailing space.  Every output character is a word character or a space. -/
theorem C6_normalize_amended (s : Str) :
    normalize s = removeNonWordSpace (collapseWS (pyStrip (pyLower s))) ∧
      (normalize s).all (fun c => isWordChar c || c = ' ') = true := by
  refine ⟨normalize_pipeline s, ?_⟩
  rw [normalize_pipeline, List.all_eq_true]
  intro c hc
  rw [removeNonWordSpace, List.mem_filter] at hc
  rcases Bool.or_eq_true_iff.mp hc.2 with h | h
  · simp [h]
  · have := collapseWS_space_eq _ c hc.1 h
    simp [this]

/-- Claim C6, counterexample: the output of normalize is not always
trimmed — on input "a !" the stripped exclamation mark leaves a trailing
space behind. -/
theorem C6_counterexample :
    normalize (str "a !") = str "a " ∧
      pyStrip (normalize (str "a !")) ≠ normalize (str "a !") := by decide

/-! ## Correctness of the Levenshtein dynamic program -/

theorem levClassic_nil_left (b : Str) : levClassic [] b = b.length := by
  simp [levClassic]

theorem levClassic_nil_right (a : Str) : levClassic a [] = a.length := by
  cases a <;> simp [levClassic]

theorem levClassic_cons (x y : Char) (xs ys : Str) :
    levClassic (x :: xs) (y :: ys) =
      min (levClassic xs (y :: ys) + 1)
        (min (levClassic (x :: xs) ys + 1)
          (levClassic xs ys + if x = y then 0 else 1)) := by
  simp [levClassic]

/-- The min-rearrangement behind the exchange of the two recurrence
directions of the Levenshtein distance: both sides flatten to the minimum
of the same nine summands. -/
theorem min9_shuffle (A1 A2 A3 B1 B2 B3 C1 C2 C3 c cX : ℕ) :
    min (min (A1 + 1) (min (B1 + 1) (C1 + cX)) + 1)
      (min (min (A2 + 1) (min (B2 + 1) (C2 + cX)) + 1)
        (min (A3 + 1) (min (B3 + 1) (C3 + cX)) + c)) =
    min (min (A1 + 1) (min (A2 + 1) (A3 + c)) + 1)
      (min (min (B1 + 1) (min (B2 + 1) (B3 + c)) + 1)
        (min (C1 + 1) (min (C2 + 1) (C3 + c)) + cX)) := by
  rw [le_antisymm_iff]
  constructor <;>
    · simp only [le_min_iff, min_le_iff]
      omega

/-- Peeling the last characters instead of the first ones satisfies the
same recurrence; this is what lets the prefix-indexed table of the source
compute the classic distance. -/
theorem levClassic_concat (x y : Char) (a : Str) :
    ∀ b : Str,
      levClassic (a ++ [x]) (b ++ [y]) =
        min (levClassic a (b ++ [y]) + 1)
          (min (levClassic (a ++ [x]) b + 1)
            (levClassic a b + if x = y then 0 else 1)) := by
  induction a with
  | nil =>
    intro b
    induction b with
    | nil =>
      simp only [List.nil_append]
      rw [levClassic_cons]
    | cons q qs hq =>
      simp only [List.nil_append] at hq ⊢
      rw [List.cons_append, levClassic_cons, levClassic_cons, hq]
      simp only [levClassic_nil_left, List.length_append, List.length_cons,
        List.length_nil]
      rw [le_antisymm_iff]
      constructor <;>
        · simp only [le_min_iff, min_le_iff]
          by_cases hxy : x = y <;> by_cases hxq : x = q <;>
            simp only [hxy, hxq, if_true, if_false, ite_true, ite_false] <;> omega
  | cons p ps ihp =>
    intro b
    induction b with
    | nil =>
      have hp := ihp []
      simp only [List.nil_append] at hp ⊢
      rw [List.cons_append, levClassic_cons, levClassic_cons, hp]
      simp only [levClassic_nil_right, List.length_append, List.length_cons,
        List.length_nil]
      rw [le_antisymm_iff]
      constructor <;>
        · simp only [le_min_iff, min_le_iff]
          by_cases hxy : x = y <;> by_cases hpy : p = y <;>
            simp only [hxy, hpy, if_true, if_false, ite_true, ite_false] <;> omega
    | cons q qs ihq =>
      have h1 := ihp (q :: qs)
      have h3 := ihp qs
      simp only [List.cons_append] at h1 ihq ⊢
      rw [levClassic_cons, levClassic_cons, levClassic_cons, levClassic_cons,
        h1, ihq, h3]
      exact min9_shuffle _ _ _ _ _ _ _ _ _ _ _

/-- The prefix-to-prefix distances obey the recurrence that fills the
source's table entry dp[i+1][j+1]. -/
theorem levClassic_take_succ_succ (a b : Str) (i j : Nat)
    (hi : i < a.length) (hj : j < b.length) :
    levClassic (a.take (i + 1)) (b.take (j + 1)) =
      min (levClassic (a.take i) (b.take (j + 1)) + 1)
        (min (levClassic (a.take (i + 1)) (b.take j) + 1)
          (levClassic (a.take i) (b.take j) +
            if a.get ⟨i, hi⟩ = b.get ⟨j, hj⟩ then 0 else 1)) := by
  have ha : a.take (i + 1) = a.take i ++ [a.get ⟨i, hi⟩] := by
    rw [List.take_succ]
    simp [List.getElem?_eq_getElem hi, List.get_eq_getElem]
  have hb : b.take (j + 1) = b.take j ++ [b.get ⟨j, hj⟩] := by
    rw [List.take_succ]
    simp [List.getElem?_eq_getElem hj, List.get_eq_getElem]
  rw [ha, hb, levClassic_concat, ← ha, ← hb]

/-- Correctness of levNext: it turns the suffix of row i beyond column j
into the suffix of row i+1, given the entering diagonal and left values. -/
theorem levNext_spec (a b : Str) (i : Nat) (hi : i < a.length) :
    ∀ n j : Nat, j + n = b.length →
      levNext (a.get ⟨i, hi⟩) (b.drop j)
        ((List.range' (j + 1) n).map (fun t => levClassic (a.take i) (b.take t)))
        (levClassic (a.take i) (b.take j))
        (levClassic (a.take (i + 1)) (b.take j)) =
      (List.range' (j + 1) n).map (fun t => levClassic (a.take (i + 1)) (b.take t)) := by
  intro n
  induction n with
  | zero =>
    intro j hj
    have hd : b.drop j = [] := List.drop_eq_nil_of_le (by omega)
    rw [hd]
    rfl
  | succ m ih =>
    intro j hj
    have hjlt : j < b.length := by omega
    have hd : b.drop j = b.get ⟨j, hjlt⟩ :: b.drop (j + 1) := by
      rw [List.drop_eq_getElem_cons hjlt, List.get_eq_getElem]
    rw [hd, List.range'_succ, List.map_cons, List.map_cons, levNext]
    have hrec := levClassic_take_succ_succ a b i j hi hjlt
    rw [← hrec]
    have htail := ih (j + 1) (by omega)
    rw [htail]

/-- One pass of the row loop: levStepRow maps row i to row i+1. -/
theorem levStepRow_spec (a b : Str) (i : Nat) (hi : i < a.length) :
    levStepRow b
        ((List.range (b.length + 1)).map (fun t => levClassic (a.take i) (b.take t)))
        (a.get ⟨i, hi⟩) (i + 1) =
      (List.range (b.length + 1)).map (fun t => levClassic (a.take (i + 1)) (b.take t)) := by
  have hr : List.range (b.length + 1) = 0 :: List.range' 1 b.length := by
    rw [List.range_eq_range', List.range'_succ]
  have h0 : ∀ k : Nat, k ≤ a.length → levClassic (a.take k) (b.take 0) = k := by
    intro k hk
    rw [List.take_zero, levClassic_nil_right, List.length_take]
    omega
  have hstep := levNext_spec a b i hi b.length 0 (by omega)
  rw [List.drop_zero] at hstep
  simp only [Nat.zero_add] at hstep
  rw [h0 i (Nat.le_of_lt hi), h0 (i + 1) hi] at hstep
  rw [hr, List.map_cons, List.map_cons, levStepRow]
  simp only [List.drop_succ_cons, List.drop_zero, List.headD_cons]
  rw [h0 i (Nat.le_of_lt hi), h0 (i + 1) hi, hstep]

/-- The row fold carries row i to the final row. -/
theorem levFoldRows_spec (a b : Str) :
    ∀ k i : Nat, i + k = a.length →
      levFoldRows b (a.drop i)
          ((List.range (b.length + 1)).map (fun t => levClassic (a.take i) (b.take t)))
          (i + 1) =
        (List.range (b.length + 1)).map (fun t => levClassic a (b.take t)) := by
  intro k
  induction k with
  | zero =>
    intro i hik
    have hd : a.drop i = [] := List.drop_eq_nil_of_le (by omega)
    have ht : a.take i = a := List.take_of_length_le (by omega)
    rw [hd, ht]
    rfl
  | succ m ih =>
    intro i hik
    have hilt : i < a.length := by omega
    have hd : a.drop i = a.get ⟨i, hilt⟩ :: a.drop (i + 1) := by
      rw [List.drop_eq_getElem_cons hilt, List.get_eq_getElem]
    rw [hd, levFoldRows, levStepRow_spec a b i hilt]
    exact ih (i + 1) (by omega)

/-- The table of the source program computes the classic Levenshtein
distance. -/
theorem levDist_eq_levClassic (a b : Str) : levDist a b = levClassic a b := by
  rw [levDist]
  have hrow0 : List.range (b.length + 1) =
      (List.range (b.length + 1)).map (fun t => levClassic (a.take 0) (b.take t)) := by
    rw [List.map_congr_left (g := id), List.map_id]
    intro t ht
    rw [List.mem_range] at ht
    rw [List.take_zero, levClassic_nil_left, List.length_take, id]
    omega
  rw [show levFoldRows b a (List.range (b.length + 1)) 1 =
      levFoldRows b (a.drop 0) ((List.range (b.length + 1)).map
        (fun t => levClassic (a.take 0) (b.take t))) (0 + 1) by rw [← hrow0, List.drop_zero]]
  rw [levFoldRows_spec a b a.length 0 (by omega)]
  rw [List.range_succ, List.map_append, List.map_cons, List.map_nil,
    List.getLastD_concat, List.take_length]

theorem levClassic_le_max : ∀ a b : Str, levClassic a b ≤ max a.length b.length
  | [], b => by simp [levClassic_nil_left]
  | p :: ps, [] => by simp [levClassic_nil_right]
  | p :: ps, q :: qs => by
    have h3 := levClassic_le_max ps qs
    rw [levClassic_cons]
    by_cases hpq : p = q <;>
      simp only [hpq, if_true, if_false, ite_true, ite_false, List.length_cons] <;>
      omega

/-- Claim C9: for all strings a and b, the edit-distance ratio is 1 when
the normalized strings coincide, 0 when they differ and either is empty,
and otherwise 1 minus the classic unit-cost Levenshtein distance of the
normalized strings divided by the longer normalized length; the result
always lies in [0, 1]. -/
theorem C9_levenshtein_ratio_spec (a b : Str) :
    levenshtein_ratio a b =
      (if normalize a = normalize b then (1 : ℚ)
       else if (normalize a).length = 0 ∨ (normalize b).length = 0 then 0
       else 1 - (levClassic (normalize a) (normalize b) : ℚ) /
          ((max (normalize a).length (normalize b).length : ℕ) : ℚ)) ∧
      0 ≤ levenshtein_ratio a b ∧ levenshtein_ratio a b ≤ 1 := by
  have key : levenshtein_ratio a b =
      (if normalize a = normalize b then (1 : ℚ)
       else if (normalize a).length = 0 ∨ (normalize b).length = 0 then 0
       else 1 - (levClassic (normalize a) (normalize b) : ℚ) /
          ((max (normalize a).length (normalize b).length : ℕ) : ℚ)) := by
    simp only [levenshtein_ratio]
    by_cases heq : normalize a = normalize b
    · simp [heq]
    · rw [if_neg heq, if_neg heq]
      by_cases h0 : (normalize a).length = 0 ∨ (normalize b).length = 0
      · rw [if_pos h0]
        rcases h0 with h | h <;> simp [h]
      · rw [if_neg h0]
        push_neg at h0
        rw [if_neg (by simp [h0.1, h0.2])]
        have hM : 0 < max (normalize a).length (normalize b).length := by omega
        have hMQ : ((max (normalize a).length (normalize b).length : ℕ) : ℚ) ≠ 0 := by
          exact_mod_cast Nat.pos_iff_ne_zero.mp hM
        rw [levDist_eq_levClassic, Rat.divInt_eq_div]
        push_cast
        push_cast at hMQ
        rw [sub_div, div_self hMQ]
  refine ⟨key, ?_, ?_⟩ <;> rw [key]
  · by_cases heq : normalize a = normalize b
    · simp [heq]
    · rw [if_neg heq]
      by_cases h0 : (normalize a).length = 0 ∨ (normalize b).length = 0
      · rw [if_pos h0]
      · rw [if_neg h0]
        push_neg at h0
        have hM : (0 : ℚ) < ((max (normalize a).length (normalize b).length : ℕ) : ℚ) := by
          have : 0 < max (normalize a).length (normalize b).length := by omega
          exact_mod_cast this
        have hle : (levClassic (normalize a) (normalize b) : ℚ) /
            ((max (normalize a).length (normalize b).length : ℕ) : ℚ) ≤ 1 := by
          rw [div_le_one hM]
          exact_mod_cast levClassic_le_max (normalize a) (normalize b)
        linarith
  · by_cases heq : normalize a = normalize b
    · simp [heq]
    · rw [if_neg heq]
      by_cases h0 : (normalize a).length = 0 ∨ (normalize b).length = 0
      · rw [if_pos h0]
        norm_num
      · rw [if_neg h0]
        push_neg at h0
        have hM : (0 : ℚ) < ((max (normalize a).length (normalize b).length : ℕ) : ℚ) := by
          have : 0 < max (normalize a).length (normalize b).length := by omega
          exact_mod_cast this
        have hnn : (0 : ℚ) ≤ (levClassic (normalize a) (normalize b) : ℚ) /
            ((max (normalize a).length (normalize b).length : ℕ) : ℚ) := by positivity
        linarith

/-! ## Characterization of the argmax scan loops of best_name_match -/

/-- The running maximum computed by one scan of best_name_match. -/
def foldMax (score : Str → ℚ) (l : List (Str × Str)) (bs : ℚ) : ℚ :=
  l.foldl (fun m kc => max m (score kc.2)) bs

theorem foldMax_nil (score : Str → ℚ) (bs : ℚ) : foldMax score [] bs = bs := rfl

theorem foldMax_cons (score : Str → ℚ) (k c : Str) (t : List (Str × Str)) (bs : ℚ) :
    foldMax score ((k, c) :: t) bs = foldMax score t (max bs (score c)) := rfl

theorem le_foldMax (score : Str → ℚ) :
    ∀ (l : List (Str × Str)) (bs : ℚ), bs ≤ foldMax score l bs
  | [], bs => le_refl bs
  | (k, c) :: t, bs =>
    le_trans (le_max_left bs (score c)) (le_foldMax score t (max bs (score c)))

theorem foldMax_mem_le (score : Str → ℚ) :
    ∀ (l : List (Str × Str)) (bs : ℚ), ∀ kc ∈ l, score kc.2 ≤ foldMax score l bs
  | (k, c) :: t, bs, kc, hm => by
    rcases List.mem_cons.mp hm with h | h
    · subst h
      exact le_trans (le_max_right bs (score c)) (le_foldMax score t _)
    · exact foldMax_mem_le score t (max bs (score c)) kc h

theorem foldMax_all_le (score : Str → ℚ) (l : List (Str × Str)) (bs : ℚ)
    (h : foldMax score l bs = bs) : ∀ kc ∈ l, score kc.2 ≤ bs := by
  intro kc hm
  calc score kc.2 ≤ foldMax score l bs := foldMax_mem_le score l bs kc hm
    _ = bs := h

theorem scanBestAux_snd (score : Str → ℚ) :
    ∀ (l : List (Str × Str)) (best : Option Str) (bs : ℚ),
      (scanBestAux score l best bs).2 = foldMax score l bs
  | [], best, bs => rfl
  | (k, c) :: t, best, bs => by
    rw [scanBestAux, foldMax_cons]
    by_cases hc : score c > bs
    · rw [if_pos hc, scanBestAux_snd score t, max_eq_right hc.le]
    · rw [if_neg hc, scanBestAux_snd score t, max_eq_left (not_lt.mp hc)]

theorem scanBestAux_fst_const (score : Str → ℚ) :
    ∀ (l : List (Str × Str)) (best : Option Str) (bs : ℚ),
      (∀ kc ∈ l, score kc.2 ≤ bs) → (scanBestAux score l best bs).1 = best
  | [], best, bs, _ => rfl
  | (k, c) :: t, best, bs, h => by
    rw [scanBestAux, if_neg (not_lt.mpr (h (k, c) (List.mem_cons_self _ _)))]
    exact scanBestAux_fst_const score t best bs fun kc hm => h kc (List.mem_cons_of_mem _ hm)

/-- When some candidate strictly improves on the start value, the scan
returns the first candidate attaining the overall maximum. -/
theorem scanBestAux_fst_argmax (score : Str → ℚ) :
    ∀ (l : List (Str × Str)) (best : Option Str) (bs : ℚ),
      bs < foldMax score l bs →
      (scanBestAux score l best bs).1 =
        (l.find? (fun kc => decide (score kc.2 = foldMax score l bs))).map (fun kc => kc.1)
  | [], best, bs, h => absurd h (lt_irrefl bs)
  | (k, c) :: t, best, bs, h => by
    rw [foldMax_cons] at h ⊢
    rw [scanBestAux]
    by_cases hc : score c > bs
    · rw [max_eq_right hc.le] at h ⊢
      rw [if_pos hc]
      by_cases hM : foldMax score t (score c) = score c
      · rw [scanBestAux_fst_const score t (some k) (score c) (foldMax_all_le score t _ hM)]
        rw [List.find?_cons_of_pos _ (by simp [hM])]
        rfl
      · have hlt : score c < foldMax score t (score c) :=
          lt_of_le_of_ne (le_foldMax score t (score c)) (Ne.symm hM)
        rw [scanBestAux_fst_argmax score t (some k) (score c) hlt]
        rw [List.find?_cons_of_neg _ (by simp; exact fun hcc => hM hcc.symm)]
    · have hbs : max bs (score c) = bs := max_eq_left (not_lt.mp hc)
      rw [hbs] at h ⊢
      rw [if_neg hc, scanBestAux_fst_argmax score t best bs h]
      have hne : score c ≠ foldMax score t bs :=
        fun hcc => absurd h (not_lt.mpr (hcc ▸ not_lt.mp hc))
      rw [List.find?_cons_of_neg _ (by simp [hne])]

/-- A value strictly above the start is attained by some candidate. -/
theorem foldMax_attained (score : Str → ℚ) :
    ∀ (l : List (Str × Str)) (bs : ℚ),
      bs < foldMax score l bs → ∃ kc ∈ l, score kc.2 = foldMax score l bs
  | [], bs, h => absurd h (lt_irrefl bs)
  | (k, c) :: t, bs, h => by
    rw [foldMax_cons] at h ⊢
    by_cases hc : score c > bs
    · rw [max_eq_right hc.le] at h ⊢
      by_cases hM : foldMax score t (score c) = score c
      · exact ⟨(k, c), List.mem_cons_self _ _, hM.symm⟩
      · have hlt : score c < foldMax score t (score c) :=
          lt_of_le_of_ne (le_foldMax score t (score c)) (Ne.symm hM)
        obtain ⟨kc, hm, hs⟩ := foldMax_attained score t (score c) hlt
        exact ⟨kc, List.mem_cons_of_mem _ hm, hs⟩
    · have hbs : max bs (score c) = bs := max_eq_left (not_lt.mp hc)
      rw [hbs] at h ⊢
      obtain ⟨kc, hm, hs⟩ := foldMax_attained score t bs h
      exact ⟨kc, List.mem_cons_of_mem _ hm, hs⟩

theorem exactFind_eq_none (n : Str) :
    ∀ l : List (Str × Str), (∀ kc ∈ l, normalize kc.2 ≠ n) → exactFind n l = none
  | [], _ => rfl
  | (k, c) :: t, h => by
    rw [exactFind, if_neg (h (k, c) (List.mem_cons_self _ _))]
    exact exactFind_eq_none n t fun kc hm => h kc (List.mem_cons_of_mem _ hm)

/-! ## Interaction of normalize with strip and lower -/

theorem toNat_ofNat_valid (m : Nat) (hm : m < 55296) : (Char.ofNat m).toNat = m := by
  rw [Char.ofNat, dif_pos (Or.inl hm)]
  rfl

theorem isSpace_toLower (c : Char) : isSpace (Char.toLower c) = isSpace c := by
  rw [Char.toLower]
  by_cases h : c.toNat ≥ 65 ∧ c.toNat ≤ 90
  · rw [if_pos h]
    have hv : (Char.ofNat (c.toNat + 32)).toNat = c.toNat + 32 :=
      toNat_ofNat_valid _ (by omega)
    have hgen : ∀ d : Char, ∀ m : Nat, d.toNat = m → 33 ≤ m → isSpace d = false := by
      intro d m hd hm
      rw [isSpace]
      have hsp : (' ' : Char).toNat = 32 := rfl
      have htb : ('\t' : Char).toNat = 9 := rfl
      have hlf : ('\n' : Char).toNat = 10 := rfl
      have hcr : ('\r' : Char).toNat = 13 := rfl
      have h1 : d ≠ ' ' := fun hc => by rw [hc, hsp] at hd; omega
      have h2 : d ≠ '\t' := fun hc => by rw [hc, htb] at hd; omega
      have h3 : d ≠ '\n' := fun hc => by rw [hc, hlf] at hd; omega
      have h4 : d ≠ '\r' := fun hc => by rw [hc, hcr] at hd; omega
      simp [h1, h2, h3, h4]
    rw [hgen _ _ hv (by omega), hgen c c.toNat rfl (by omega)]
  · rw [if_neg h]

theorem dropWhile_lower (l : Str) :
    (pyLower l).dropWhile (fun c => isSpace c) =
      pyLower (l.dropWhile (fun c => isSpace c)) := by
  rw [pyLower, pyLower, List.dropWhile_map]
  have hcomp : ((fun c => isSpace c) ∘ Char.toLower) = fun c => isSpace c := by
    funext c
    exact isSpace_toLower c
  rw [hcomp]

theorem reverse_lower (l : Str) : (pyLower l).reverse = pyLower l.reverse := by
  rw [pyLower, pyLower, List.map_reverse]

theorem pyStrip_pyLower (s : Str) : pyStrip (pyLower s) = pyLower (pyStrip s) := by
  rw [pyStrip, pyStrip, dropWhile_lower, reverse_lower, dropWhile_lower,
    reverse_lower]

theorem dropWhile_head_not {p : Char → Bool} :
    ∀ (s : Str) (a : Char) (l : Str), s.dropWhile p = a :: l → p a = false
  | [], a, l, h => by simp at h
  | c :: cs, a, l, h => by
    rw [List.dropWhile_cons] at h
    by_cases hc : p c = true
    · rw [if_pos hc] at h
      exact dropWhile_head_not cs a l h
    · rw [if_neg hc] at h
      cases h
      exact Bool.not_eq_true _ |>.mp hc

theorem pyStrip_idem (s : Str) : pyStrip (pyStrip s) = pyStrip s := by
  set p : Char → Bool := fun c => isSpace c with hp
  set u := s.dropWhile p with hu
  set w := u.reverse.dropWhile p with hw
  have hstrip : pyStrip s = w.reverse := rfl
  obtain ⟨t, ht⟩ : w <:+ u.reverse := List.dropWhile_suffix p
  have hu_eq : u = w.reverse ++ t.reverse := by
    have := congrArg List.reverse ht
    rw [List.reverse_append, List.reverse_reverse] at this
    exact this.symm
  have hfront : w.reverse.dropWhile p = w.reverse := by
    cases hwr : w.reverse with
    | nil => rfl
    | cons a l =>
      have hut : u = a :: (l ++ t.reverse) := by rw [hu_eq, hwr]; rfl
      have hpa : p a = false := by
        refine dropWhile_head_not s a (l ++ t.reverse) ?_
        rw [← hu, hut]
      rw [List.dropWhile_cons, if_neg (by simp [hpa])]
  have hback : w.reverse.reverse.dropWhile p = w.reverse.reverse := by
    rw [List.reverse_reverse, hw]
    exact List.dropWhile_idempotent p u.reverse
  rw [hstrip, pyStrip, hfront, hback, List.reverse_reverse]

theorem pyStrip_nil : pyStrip [] = [] := rfl

theorem normalize_pyStrip (s : Str) : normalize (pyStrip s) = normalize s := by
  by_cases hs : s = []
  · subst hs
    rfl
  · by_cases hps : pyStrip s = []
    · rw [hps]
      have h1 : normalize ([] : Str) = [] := rfl
      rw [h1, normalize, if_neg hs, pyStrip_pyLower, hps]
      rfl
    · rw [normalize, if_neg hps, normalize, if_neg hs, pyStrip_pyLower,
        pyStrip_pyLower, pyStrip_idem]

theorem pyOr_of_ne (a b : Str) (h : a ≠ []) : pyOr a b = a := by
  rw [pyOr, if_neg h]

theorem pyOr_nil (b : Str) : pyOr [] b = b := rfl

/-! ## Association-list lemmas -/

theorem aget_aset_self {α : Type} :
    ∀ (l : AList α) (k : Str) (v : α), aget (aset l k v) k = some v
  | [], k, v => by simp [aset, aget]
  | (k', v') :: t, k, v => by
    rw [aset]
    by_cases h : k' = k
    · rw [if_pos h, aget, if_pos rfl]
    · rw [if_neg h, aget, if_neg h]
      exact aget_aset_self t k v

theorem aget_aset_ne {α : Type} :
    ∀ (l : AList α) (k k' : Str) (v : α), k ≠ k' → aget (aset l k v) k' = aget l k'
  | [], k, k', v, h => by simp [aset, aget, h]
  | (k0, v0) :: t, k, k', v, h => by
    rw [aset]
    by_cases h0 : k0 = k
    · rw [if_pos h0, aget, aget, if_neg (h0 ▸ h), if_neg (fun hc => h (h0 ▸ hc))]
    · rw [if_neg h0, aget, aget]
      by_cases h1 : k0 = k'
      · rw [if_pos h1, if_pos h1]
      · rw [if_neg h1, if_neg h1]
        exact aget_aset_ne t k k' v h

theorem mem_akeys_cons {α : Type} (k k0 : Str) (v0 : α) (t : AList α) :
    k ∈ akeys ((k0, v0) :: t) ↔ k = k0 ∨ k ∈ akeys t := by
  rw [akeys, List.map_cons, List.mem_cons]
  rfl

theorem akeys_aset {α : Type} :
    ∀ (l : AList α) (k : Str) (v : α),
      akeys (aset l k v) = if k ∈ akeys l then akeys l else akeys l ++ [k]
  | [], k, v => by
    simp [aset, akeys]
  | (k0, v0) :: t, k, v => by
    rw [aset]
    by_cases h0 : k0 = k
    · rw [if_pos h0, if_pos (by rw [mem_akeys_cons]; exact Or.inl h0.symm), h0]
      rfl
    · rw [if_neg h0]
      have hstep : akeys ((k0, v0) :: aset t k v) = k0 :: akeys (aset t k v) := rfl
      rw [hstep, akeys_aset t k v]
      by_cases hm : k ∈ akeys t
      · rw [if_pos hm, if_pos (by rw [mem_akeys_cons]; exact Or.inr hm)]
        rfl
      · rw [if_neg hm, if_neg (by
          rw [mem_akeys_cons]
          rintro (h | h)
          · exact h0 h.symm
          · exact hm h)]
        rfl

theorem akeys_aset_of_mem {α : Type} (l : AList α) (k : Str) (v : α)
    (h : k ∈ akeys l) : akeys (aset l k v) = akeys l := by
  rw [akeys_aset, if_pos h]

theorem akeys_aset_of_not_mem {α : Type} (l : AList α) (k : Str) (v : α)
    (h : k ∉ akeys l) : akeys (aset l k v) = akeys l ++ [k] := by
  rw [akeys_aset, if_neg h]

theorem aget_isSome_of_mem {α : Type} :
    ∀ (l : AList α) (k : Str), k ∈ akeys l → (aget l k).isSome = true
  | [], k, h => absurd h (List.not_mem_nil _)
  | (k0, v0) :: t, k, h => by
    rw [aget]
    by_cases h0 : k0 = k
    · rw [if_pos h0]
      rfl
    · rw [if_neg h0]
      refine aget_isSome_of_mem t k ?_
      rcases (mem_akeys_cons k k0 v0 t).mp h with h | h
      · exact absurd h.symm h0
      · exact h

theorem mem_of_aget_isSome {α : Type} :
    ∀ (l : AList α) (k : Str), (aget l k).isSome = true → k ∈ akeys l
  | [], k, h => by simp [aget] at h
  | (k0, v0) :: t, k, h => by
    rw [aget] at h
    by_cases h0 : k0 = k
    · exact (mem_akeys_cons k k0 v0 t).mpr (Or.inl h0.symm)
    · rw [if_neg h0] at h
      exact (mem_akeys_cons k k0 v0 t).mpr (Or.inr (mem_of_aget_isSome t k h))

theorem aget_eq_none_of_not_mem {α : Type} (l : AList α) (k : Str)
    (h : k ∉ akeys l) : aget l k = none := by
  cases hg : aget l k with
  | none => rfl
  | some v => exact absurd (mem_of_aget_isSome l k (by rw [hg]; rfl)) h

theorem akeys_nodup_aset {α : Type} (l : AList α) (k : Str) (v : α)
    (h : (akeys l).Nodup) : (akeys (aset l k v)).Nodup := by
  by_cases hm : k ∈ akeys l
  · rw [akeys_aset_of_mem l k v hm]
    exact h
  · rw [akeys_aset_of_not_mem l k v hm]
    simp [List.nodup_append, h, hm]

/-! ## Injectivity of the decimal rendering, freshness of generated slugs -/

def decDigit (c : Char) : Nat :=
  if c = '0' then 0 else if c = '1' then 1 else if c = '2' then 2
  else if c = '3' then 3 else if c = '4' then 4 else if c = '5' then 5
  else if c = '6' then 6 else if c = '7' then 7 else if c = '8' then 8 else 9

def decVal (s : Str) : Nat := s.foldl (fun acc c => 10 * acc + decDigit c) 0

theorem decDigit_digitChar : ∀ n < 10, decDigit (Nat.digitChar n) = n := by decide

theorem decVal_concat (xs : Str) (c : Char) :
    decVal (xs ++ [c]) = 10 * decVal xs + decDigit c := by
  rw [decVal, List.foldl_append]
  rfl

theorem natToDecAux_val :
    ∀ fuel n, n < 10 ^ fuel → decVal (natToDecAux fuel n) = n
  | 0, n, h => by
    have : n = 0 := by omega
    simp [natToDecAux, decVal, this]
  | fuel + 1, n, h => by
    rw [natToDecAux]
    by_cases hn : n < 10
    · rw [if_pos hn]
      show 10 * 0 + decDigit (Nat.digitChar n) = n
      rw [decDigit_digitChar n hn]
      omega
    · rw [if_neg hn, decVal_concat]
      have hdiv : n / 10 < 10 ^ fuel := by
        rw [Nat.div_lt_iff_lt_mul (by norm_num)]
        calc n < 10 ^ (fuel + 1) := h
          _ = 10 ^ fuel * 10 := by ring
      rw [natToDecAux_val fuel (n / 10) hdiv,
        decDigit_digitChar (n % 10) (Nat.mod_lt n (by norm_num))]
      omega

theorem decVal_natToDec (n : Nat) : decVal (natToDec n) = n := by
  rw [natToDec]
  exact natToDecAux_val (n + 1) n (lt_of_lt_of_le (Nat.lt_pow_self (by norm_num) n)
    (Nat.pow_le_pow_right (by norm_num) (Nat.le_succ n)))

theorem natToDec_inj (m n : Nat) (h : natToDec m = natToDec n) : m = n := by
  rw [← decVal_natToDec m, ← decVal_natToDec n, h]

theorem slugCandidate_inj (base : Str) (i j : Nat) (hi : 1 ≤ i) (hj : 1 ≤ j)
    (h : slugCandidate base i = slugCandidate base j) : i = j := by
  rw [slugCandidate, slugCandidate] at h
  by_cases h1 : i = 1 <;> by_cases h2 : j = 1
  · omega
  · rw [if_pos h1, if_neg h2] at h
    have := congrArg List.length h
    simp [List.length_append] at this
  · rw [if_neg h1, if_pos h2] at h
    have := congrArg List.length h
    simp [List.length_append] at this
  · rw [if_neg h1, if_neg h2] at h
    have h3 := List.append_cancel_left h
    have h4 : natToDec i = natToDec j := by injection h3
    exact natToDec_inj i j h4

theorem slugLoop_not_mem (keys : List Str) (base : Str) :
    ∀ fuel i,
      ((List.range' i fuel).filter (fun j => decide (slugCandidate base j ∈ keys))).length
          < fuel →
      slugLoop keys base fuel i ∉ keys
  | 0, i, h => absurd h (by omega)
  | fuel + 1, i, h => by
    rw [slugLoop]
    by_cases hm : slugCandidate base i ∈ keys
    · rw [if_pos hm]
      refine slugLoop_not_mem keys base fuel (i + 1) ?_
      rw [List.range'_succ, List.filter_cons_of_pos (by simp [hm]), List.length_cons] at h
      omega
    · rw [if_neg hm]
      exact hm

theorem freshSlug_not_mem (keys : List Str) (base : Str) :
    freshSlug keys base ∉ keys := by
  refine slugLoop_not_mem keys base (keys.length + 1) 1 ?_
  have hnodup : ((List.range' 1 (keys.length + 1)).filter
      (fun j => decide (slugCandidate base j ∈ keys))).Nodup :=
    (List.nodup_range' 1 (keys.length + 1)).filter _
  have hmap : (((List.range' 1 (keys.length + 1)).filter
      (fun j => decide (slugCandidate base j ∈ keys))).map
        (slugCandidate base)).Nodup := by
    refine hnodup.map_on ?_
    intro x hx y hy hxy
    have hx1 : 1 ≤ x := (List.mem_range'_1.mp (List.mem_of_mem_filter hx)).1
    have hy1 : 1 ≤ y := (List.mem_range'_1.mp (List.mem_of_mem_filter hy)).1
    exact slugCandidate_inj base x y hx1 hy1 hxy
  have hsub : ∀ s ∈ ((List.range' 1 (keys.length + 1)).filter
      (fun j => decide (slugCandidate base j ∈ keys))).map (slugCandidate base),
      s ∈ keys := by
    intro s hs
    rcases List.mem_map.mp hs with ⟨j, hj, hjs⟩
    have := List.of_mem_filter hj
    simp only [decide_eq_true_eq] at this
    rw [← hjs]
    exact this
  have hcard : (((List.range' 1 (keys.length + 1)).filter
      (fun j => decide (slugCandidate base j ∈ keys))).map
        (slugCandidate base)).length ≤ keys.length := by
    rw [← List.toFinset_card_of_nodup hmap]
    calc _ ≤ keys.toFinset.card := by
          refine Finset.card_le_card ?_
          intro s hs
          rw [List.mem_toFinset] at hs ⊢
          exact hsub s hs
      _ ≤ keys.length := keys.toFinset_card_le
  rw [List.length_map] at hcard
  omega

/-! ## Store well-formedness and the shape of one ingestion -/

theorem aset_aset {α : Type} :
    ∀ (l : AList α) (k : Str) (v w : α), aset (aset l k v) k w = aset l k w
  | [], k, v, w => by simp [aset]
  | (k0, v0) :: t, k, v, w => by
    rw [aset]
    by_cases h0 : k0 = k
    · rw [if_pos h0, aset, if_pos rfl, aset, if_pos h0]
    · rw [if_neg h0, aset, if_neg h0, aset, if_neg h0, aset_aset t k v w]

/-- Well-formedness of the two global dicts: unique keys and no dangling
name-index entry. -/
def StoreWF (st : Store) : Prop :=
  (akeys st.master).Nodup ∧ (akeys st.nameIdx).Nodup ∧
    (∀ n k, aget st.nameIdx n = some k → k ∈ akeys st.master)

/-- Every entity with a non-empty canonical name has its normalized name
present in the name index (pointing to some entity). -/
def NamesIndexed (st : Store) : Prop :=
  ∀ k p, aget st.master k = some p → p.identitas_dasar.nama_lengkap ≠ [] →
    normalize p.identitas_dasar.nama_lengkap ∈ akeys st.nameIdx

theorem emptyStore_WF : StoreWF emptyStore :=
  ⟨List.nodup_nil, List.nodup_nil, fun n k h => by simp [aget, emptyStore] at h⟩

theorem scanBestAux_fst_mem (score : Str → ℚ) :
    ∀ (l : List (Str × Str)) (best : Option Str) (bs : ℚ) (k : Str),
      (scanBestAux score l best bs).1 = some k →
      best = some k ∨ k ∈ l.map (fun kc => kc.1)
  | [], best, bs, k, h => Or.inl h
  | (k0, c0) :: t, best, bs, k, h => by
    rw [scanBestAux] at h
    by_cases hc : score c0 > bs
    · rw [if_pos hc] at h
      rcases scanBestAux_fst_mem score t (some k0) (score c0) k h with h | h
      · right
        rw [List.map_cons, List.mem_cons]
        exact Or.inl (Option.some_injective _ h).symm
      · right
        rw [List.map_cons, List.mem_cons]
        exact Or.inr h
    · rw [if_neg hc] at h
      rcases scanBestAux_fst_mem score t best bs k h with h | h
      · exact Or.inl h
      · right
        rw [List.map_cons, List.mem_cons]
        exact Or.inr h

theorem exactFind_mem (n : Str) :
    ∀ (l : List (Str × Str)) (k : Str), exactFind n l = some k → k ∈ l.map (fun kc => kc.1)
  | [], k, h => by simp [exactFind] at h
  | (k0, c0) :: t, k, h => by
    rw [exactFind] at h
    by_cases h0 : normalize c0 = n
    · rw [if_pos h0] at h
      rw [List.map_cons, List.mem_cons]
      exact Or.inl (Option.some_injective _ h).symm
    · rw [if_neg h0] at h
      rw [List.map_cons, List.mem_cons]
      exact Or.inr (exactFind_mem n t k h)

theorem best_name_match_mem (name : Str) (cands : List (Str × Str))
    (tt lt : ℚ) (k : Str) (h : best_name_match name cands tt lt = some k) :
    k ∈ cands.map (fun kc => kc.1) := by
  rw [best_name_match] at h
  by_cases hn : normalize name = []
  · rw [if_pos hn] at h
    cases h
  · rw [if_neg hn] at h
    cases hEx : exactFind (normalize name) cands with
    | some k0 =>
      rw [hEx] at h
      cases h
      exact exactFind_mem _ cands k hEx
    | none =>
      rw [hEx] at h
      by_cases ht : (scanBestAux (fun canon => token_overlap_score (normalize name) canon)
          cands none 0).2 ≥ tt
      · rw [if_pos ht] at h
        rcases scanBestAux_fst_mem _ cands none 0 k h with h | h
        · cases h
        · exact h
      · rw [if_neg ht] at h
        by_cases hl : (scanBestAux (fun canon => levenshtein_ratio (normalize name) canon)
            cands none 0).2 ≥ lt
        · rw [if_pos hl] at h
          rcases scanBestAux_fst_mem _ cands none 0 k h with h | h
          · cases h
          · exact h
        · rw [if_neg hl] at h
          cases h

theorem candidatesOf_keys (m : AList Player) :
    (candidatesOf m).map (fun kc => kc.1) = akeys m := by
  rw [candidatesOf, akeys, List.map_map]
  rfl

/-! Branch lemmas for resolveKey. -/

theorem resolveKey_pid_mem (st : Store) (row : Row) (h1 : rowPid row ≠ [])
    (h2 : (aget st.master (rowPid row)).isSome = true) :
    resolveKey st row = (st, rowPid row) := by
  rw [resolveKey]
  simp only [if_pos h1, h2, if_true]

theorem resolveKey_pid_new (st : Store) (row : Row) (h1 : rowPid row ≠ [])
    (h2 : aget st.master (rowPid row) = none) :
    resolveKey st row =
      ({ st with master := aset st.master (rowPid row) (blankWithId (rowPid row)) },
        rowPid row) := by
  rw [resolveKey]
  simp only [if_pos h1, h2, Option.isSome_none, Bool.false_eq_true, if_false]

theorem resolveKey_idx (st : Store) (row : Row) (k : Str) (h1 : rowPid row = [])
    (h2 : aget st.nameIdx (lightNorm row) = some k) :
    resolveKey st row = (st, k) := by
  rw [resolveKey]
  simp only [h1, ne_eq, not_true_eq_false, if_false, h2]

theorem resolveKey_bnm (st : Store) (row : Row) (k : Str) (h1 : rowPid row = [])
    (h2 : aget st.nameIdx (lightNorm row) = none)
    (h3 : best_name_match (rowPName row) (candidatesOf st.master)
      (Rat.divInt 3 5) (Rat.divInt 39 50) = some k) :
    resolveKey st row = (st, k) := by
  rw [resolveKey]
  simp only [h1, ne_eq, not_true_eq_false, if_false, h2, h3]

theorem resolveKey_new (st : Store) (row : Row) (h1 : rowPid row = [])
    (h2 : aget st.nameIdx (lightNorm row) = none)
    (h3 : best_name_match (rowPName row) (candidatesOf st.master)
      (Rat.divInt 3 5) (Rat.divInt 39 50) = none) :
    resolveKey st row =
      ({ st with master := aset st.master (newKey st.master row) (blankWithId (rowPid row)) },
        newKey st.master row) := by
  rw [resolveKey]
  simp only [h1, ne_eq, not_true_eq_false, if_false, h2, h3]

/-- The five branches, summarized: resolution never touches the name index
and either leaves the master dict unchanged (with the key pointing at an
existing entity under mild assumptions) or inserts one blank entity under
a key that was not present. -/
theorem resolveKey_shape (st : Store) (row : Row) :
    (resolveKey st row).1.nameIdx = st.nameIdx ∧
      ((resolveKey st row).1.master = st.master ∨
        (aget st.master (resolveKey st row).2 = none ∧
          (resolveKey st row).1.master =
            aset st.master (resolveKey st row).2 (blankWithId (rowPid row)))) := by
  by_cases h1 : rowPid row ≠ []
  · by_cases h2 : (aget st.master (rowPid row)).isSome = true
    · rw [resolveKey_pid_mem st row h1 h2]
      exact ⟨rfl, Or.inl rfl⟩
    · have h2' : aget st.master (rowPid row) = none := by
        cases hg : aget st.master (rowPid row) with
        | none => rfl
        | some p => rw [hg] at h2; exact absurd rfl h2
      rw [resolveKey_pid_new st row h1 h2']
      exact ⟨rfl, Or.inr ⟨h2', rfl⟩⟩
  · rw [not_not] at h1
    cases hidx : aget st.nameIdx (lightNorm row) with
    | some k =>
      rw [resolveKey_idx st row k h1 hidx]
      exact ⟨rfl, Or.inl rfl⟩
    | none =>
      cases hbnm : best_name_match (rowPName row) (candidatesOf st.master)
          (Rat.divInt 3 5) (Rat.divInt 39 50) with
      | some k =>
        rw [resolveKey_bnm st row k h1 hidx hbnm]
        exact ⟨rfl, Or.inl rfl⟩
      | none =>
        rw [resolveKey_new st row h1 hidx hbnm]
        refine ⟨rfl, Or.inr ⟨?_, rfl⟩⟩
        exact aget_eq_none_of_not_mem st.master (newKey st.master row)
          (freshSlug_not_mem (akeys st.master) (slugBase st.master row))

/-- Decomposition of a successful call to add_or_merge_player. -/
theorem add_or_merge_shape (st : Store) (row : Row) (st' : Store) (k : Str)
    (h : add_or_merge_player st row = some (st', k)) :
    k = (resolveKey st row).2 ∧
      ∃ target, aget (resolveKey st row).1.master k = some target ∧
        st'.master = aset (resolveKey st row).1.master k (mergeRow target row) ∧
        st'.nameIdx =
          (if (mergeRow target row).identitas_dasar.nama_lengkap ≠ [] then
            aset (resolveKey st row).1.nameIdx
              (normalize (mergeRow target row).identitas_dasar.nama_lengkap) k
          else (resolveKey st row).1.nameIdx) := by
  cases hg : aget (resolveKey st row).1.master (resolveKey st row).2 with
  | none =>
    simp only [add_or_merge_player, hg] at h
    exact Option.noConfusion h
  | some target =>
    simp only [add_or_merge_player, hg, Option.some.injEq, Prod.mk.injEq] at h
    obtain ⟨hst, hk⟩ := h
    subst hk
    refine ⟨rfl, target, hg, ?_, ?_⟩ <;> rw [← hst]

/-- The store produced by the merge step once the key has been resolved. -/
def postStore (st1 : Store) (k : Str) (row : Row) (target : Player) : Store :=
  { master := aset st1.master k (mergeRow target row)
    nameIdx :=
      if (mergeRow target row).identitas_dasar.nama_lengkap ≠ [] then
        aset st1.nameIdx (normalize (mergeRow target row).identitas_dasar.nama_lengkap) k
      else st1.nameIdx }

/-- A successful ingestion, given an existing target (the common path of
all claims). -/
theorem add_or_merge_eq_of_target (st : Store) (row : Row) (target : Player)
    (hg : aget (resolveKey st row).1.master (resolveKey st row).2 = some target) :
    add_or_merge_player st row =
      some (postStore (resolveKey st row).1 (resolveKey st row).2 row target,
        (resolveKey st row).2) := by
  simp only [add_or_merge_player, hg, postStore]

/-! ## Preservation of the store invariant (claim C7) -/

theorem mem_akeys_aset_mono {α : Type} (l : AList α) (k x : Str) (v : α)
    (h : x ∈ akeys l) : x ∈ akeys (aset l k v) := by
  rw [akeys_aset]
  by_cases hm : k ∈ akeys l
  · rw [if_pos hm]
    exact h
  · rw [if_neg hm]
    exact List.mem_append_left _ h

theorem mem_akeys_aset_self {α : Type} (l : AList α) (k : Str) (v : α) :
    k ∈ akeys (aset l k v) := by
  rw [akeys_aset]
  by_cases hm : k ∈ akeys l
  · rw [if_pos hm]
    exact hm
  · rw [if_neg hm]
    exact List.mem_append_right _ (List.mem_singleton.mpr rfl)

theorem aget_aset_cases {α : Type} (l : AList α) (k n : Str) (v : α) :
    aget (aset l k v) n = if k = n then some v else aget l n := by
  by_cases h : k = n
  · rw [if_pos h, h]
    exact aget_aset_self l n v
  · rw [if_neg h]
    exact aget_aset_ne l k n v h

/-- On a store without dangling index entries, key resolution always lands
on an entry of the (possibly extended) master dict: line 339 cannot raise. -/
theorem resolveKey_target (st : Store) (row : Row)
    (hdang : ∀ n k, aget st.nameIdx n = some k → k ∈ akeys st.master) :
    ((aget (resolveKey st row).1.master (resolveKey st row).2).isSome) = true := by
  by_cases h1 : rowPid row ≠ []
  · by_cases h2 : (aget st.master (rowPid row)).isSome = true
    · rw [resolveKey_pid_mem st row h1 h2]
      exact h2
    · have h2' : aget st.master (rowPid row) = none := by
        cases hg : aget st.master (rowPid row) with
        | none => rfl
        | some p => rw [hg] at h2; exact absurd rfl h2
      rw [resolveKey_pid_new st row h1 h2']
      show (aget (aset st.master (rowPid row) (blankWithId (rowPid row))) (rowPid row)).isSome = true
      rw [aget_aset_self]
      rfl
  · rw [not_not] at h1
    cases hidx : aget st.nameIdx (lightNorm row) with
    | some k =>
      rw [resolveKey_idx st row k h1 hidx]
      exact aget_isSome_of_mem st.master k (hdang _ k hidx)
    | none =>
      cases hbnm : best_name_match (rowPName row) (candidatesOf st.master)
          (Rat.divInt 3 5) (Rat.divInt 39 50) with
      | some k =>
        rw [resolveKey_bnm st row k h1 hidx hbnm]
        refine aget_isSome_of_mem st.master k ?_
        have := best_name_match_mem _ _ _ _ _ hbnm
        rwa [candidatesOf_keys] at this
      | none =>
        rw [resolveKey_new st row h1 hidx hbnm]
        show (aget (aset st.master (newKey st.master row) (blankWithId (rowPid row)))
          (newKey st.master row)).isSome = true
        rw [aget_aset_self]
        rfl

/-- One ingestion on a well-formed store succeeds and preserves both the
well-formedness and the names-indexed property. -/
theorem ingest_preserves (st : Store) (row : Row)
    (hWF : StoreWF st) (hNI : NamesIndexed st) :
    ∃ st' k, add_or_merge_player st row = some (st', k) ∧ StoreWF st' ∧
      NamesIndexed st' := by
  obtain ⟨hnd, hnI, hdang⟩ := hWF
  obtain ⟨hidx1, hshape⟩ := resolveKey_shape st row
  obtain ⟨target, htg⟩ := Option.isSome_iff_exists.mp (resolveKey_target st row hdang)
  refine ⟨_, _, add_or_merge_eq_of_target st row target htg, ?_, ?_⟩
  all_goals
    have hmnd : (akeys (resolveKey st row).1.master).Nodup := by
      rcases hshape with hsame | ⟨hnone, hcreate⟩
      · rw [hsame]; exact hnd
      · rw [hcreate]; exact akeys_nodup_aset _ _ _ hnd
    have hmem_mono : ∀ x, x ∈ akeys st.master → x ∈ akeys (resolveKey st row).1.master := by
      intro x hx
      rcases hshape with hsame | ⟨hnone, hcreate⟩
      · rw [hsame]; exact hx
      · rw [hcreate]; exact mem_akeys_aset_mono _ _ _ _ hx
    have hk_mem : (resolveKey st row).2 ∈ akeys (resolveKey st row).1.master :=
      mem_of_aget_isSome _ _ (by rw [htg]; rfl)
  · -- StoreWF
    refine ⟨?_, ?_, ?_⟩
    · show (akeys (aset (resolveKey st row).1.master _ _)).Nodup
      exact akeys_nodup_aset _ _ _ hmnd
    · show (akeys (if _ then _ else _)).Nodup
      split
      · rw [hidx1] at *
        exact akeys_nodup_aset _ _ _ hnI
      · rw [hidx1]
        exact hnI
    · intro n k hget
      show k ∈ akeys (aset (resolveKey st row).1.master _ _)
      have hself : ∀ x, x ∈ akeys (resolveKey st row).1.master →
          x ∈ akeys (aset (resolveKey st row).1.master (resolveKey st row).2
            (mergeRow target row)) := fun x hx => mem_akeys_aset_mono _ _ _ _ hx
      revert hget
      show aget (if _ then _ else _) n = some k → _
      split
      · rw [hidx1]
        rw [aget_aset_cases]
        split
        · intro hsome
          cases hsome
          exact hself _ hk_mem
        · intro hsome
          exact hself _ (hmem_mono _ (hdang n k hsome))
      · rw [hidx1]
        intro hsome
        exact hself _ (hmem_mono _ (hdang n k hsome))
  · -- NamesIndexed
    intro k p hget hne
    show normalize p.identitas_dasar.nama_lengkap ∈ akeys (if _ then _ else _)
    rw [show aget (postStore (resolveKey st row).1 (resolveKey st row).2 row target).master k
        = aget (aset (resolveKey st row).1.master (resolveKey st row).2
          (mergeRow target row)) k from rfl, aget_aset_cases] at hget
    by_cases hk : (resolveKey st row).2 = k
    · rw [if_pos hk] at hget
      cases hget
      rw [if_pos hne]
      exact mem_akeys_aset_self _ _ _
    · rw [if_neg hk] at hget
      have hsrc : normalize p.identitas_dasar.nama_lengkap ∈ akeys st.nameIdx := by
        rcases hshape with hsame | ⟨hnone, hcreate⟩
        · rw [hsame] at hget
          exact hNI k p hget hne
        · rw [hcreate, aget_aset_cases] at hget
          rw [if_neg hk] at hget
          exact hNI k p hget hne
      split
      · rw [hidx1]
        exact mem_akeys_aset_mono _ _ _ _ hsrc
      · rw [hidx1]
        exact hsrc

/-- Claim C7 (amended): after every sequence of ingestions from the empty
store the run succeeds, no two entities share a key, every name-index
entry points to an existing entity, and every entity with a non-empty
canonical name has its normalized name present in the index — though not
necessarily mapped to that same entity (see the counterexample). -/
theorem C7_invariant_amended (rows : List Row) :
    ∃ st, runRows emptyStore rows = some st ∧ (akeys st.master).Nodup ∧
      (∀ n k, aget st.nameIdx n = some k → k ∈ akeys st.master) ∧
      NamesIndexed st := by
  suffices h : ∀ (st : Store), StoreWF st → NamesIndexed st →
      ∃ st', runRows st rows = some st' ∧ StoreWF st' ∧ NamesIndexed st' by
    obtain ⟨st', hrun, ⟨hnd, _, hdang⟩, hNI⟩ :=
      h emptyStore emptyStore_WF (fun k p hget => by simp [aget, emptyStore] at hget)
    exact ⟨st', hrun, hnd, hdang, hNI⟩
  induction rows with
  | nil => exact fun st hWF hNI => ⟨st, rfl, hWF, hNI⟩
  | cons r rs ih =>
    intro st hWF hNI
    obtain ⟨st1, k, hstep, hWF1, hNI1⟩ := ingest_preserves st r hWF hNI
    obtain ⟨st', hrun, hWF', hNI'⟩ := ih st1 hWF1 hNI1
    exact ⟨st', by rw [runRows, hstep]; exact hrun, hWF', hNI'⟩

/-- Claim C7, counterexample: ingesting id "1" named "Foo", then id "2"
also named "Foo", leaves entity "1" with canonical name "Foo" while the
index maps "foo" to "2" — the index does not point back to entity "1". -/
theorem C7_counterexample :
    (runRows emptyStore
        [[(str "player_id", str "1"), (str "player_name", str "Foo")],
         [(str "player_id", str "2"), (str "player_name", str "Foo")]]).map
      (fun st => ((aget st.master (str "1")).map
          (fun p => p.identitas_dasar.nama_lengkap),
        aget st.nameIdx (normalize (str "Foo")))) =
      some (some (str "Foo"), some (str "2")) ∧ str "2" ≠ str "1" := by decide

/-! ## Field-merge lemmas -/

theorem setIf_nil (c : Str) : setIf c [] = c := by simp [setIf]

theorem setIf_of_ne (c v : Str) (h : v ≠ []) : setIf c v = v := by simp [setIf, h]

theorem setIf_idem (c v : Str) : setIf (setIf c v) v = setIf c v := by
  by_cases h : v = [] <;> simp [setIf, h]

theorem mergeIdentitas_idem (i : Identitas) (row : Row) :
    mergeIdentitas (mergeIdentitas i row) row = mergeIdentitas i row := by
  by_cases hnat :
      pyOr (rowGet row (str "citizenship")) (rowGet row (str "nationality")) = [] <;>
    simp [mergeIdentitas, setIf_idem, hnat]

/-- A canonical record without its provenance: the part of the entity the
idempotence claim is about. -/
def dropOrigins (p : Player) : Player := { p with origins := [] }

theorem mergeRow_idem_core (p : Player) (row : Row) :
    dropOrigins (mergeRow (mergeRow p row) row) = dropOrigins (mergeRow p row) := by
  by_cases hmv :
      pyOr (rowGet row (str "market_value_in_eur")) (rowGet row (str "market_value")) = [] <;>
  by_cases hlu : rowGet row (str "last_market_value_update") = [] <;>
    simp [dropOrigins, mergeRow, mergeIdentitas_idem, hmv, hlu]

/-- Per-field non-clobbering: a row with an empty or absent value under
every alias of a field leaves that field of the merged record unchanged. -/
theorem mergeRow_empty_fields (p : Player) (row : Row) :
    (rowGet row (str "player_name") = [] →
      (mergeRow p row).identitas_dasar.nama_lengkap = p.identitas_dasar.nama_lengkap) ∧
    (rowGet row (str "known_as") = [] →
      (mergeRow p row).identitas_dasar.nama_panggilan = p.identitas_dasar.nama_panggilan) ∧
    (rowGet row (str "date_of_birth") = [] →
      (mergeRow p row).identitas_dasar.tanggal_lahir = p.identitas_dasar.tanggal_lahir) ∧
    (rowGet row (str "age") = [] →
      (mergeRow p row).identitas_dasar.usia = p.identitas_dasar.usia) ∧
    (rowGet row (str "height") = [] →
      (mergeRow p row).identitas_dasar.tinggi_badan_cm = p.identitas_dasar.tinggi_badan_cm) ∧
    (rowGet row (str "weight") = [] →
      (mergeRow p row).identitas_dasar.berat_badan_kg = p.identitas_dasar.berat_badan_kg) ∧
    (rowGet row (str "position") = [] →
      (mergeRow p row).identitas_dasar.posisi_utama = p.identitas_dasar.posisi_utama) ∧
    (rowGet row (str "foot") = [] →
      (mergeRow p row).identitas_dasar.kaki_dominan = p.identitas_dasar.kaki_dominan) ∧
    (rowGet row (str "current_club") = [] →
      (mergeRow p row).identitas_dasar.klub_saat_ini = p.identitas_dasar.klub_saat_ini) ∧
    (rowGet row (str "shirt_number") = [] →
      (mergeRow p row).identitas_dasar.nomor_punggung = p.identitas_dasar.nomor_punggung) ∧
    (rowGet row (str "contract_start") = [] →
      (mergeRow p row).identitas_dasar.kontrak_mulai = p.identitas_dasar.kontrak_mulai) ∧
    (rowGet row (str "contract_expiry") = [] →
      (mergeRow p row).identitas_dasar.kontrak_berakhir = p.identitas_dasar.kontrak_berakhir) ∧
    (rowGet row (str "citizenship") = [] → rowGet row (str "nationality") = [] →
      (mergeRow p row).identitas_dasar.kewarganegaraan = p.identitas_dasar.kewarganegaraan) ∧
    (rowGet row (str "market_value_in_eur") = [] → rowGet row (str "market_value") = [] →
      (mergeRow p row).nilai_terkini_eur = p.nilai_terkini_eur) ∧
    (rowGet row (str "last_market_value_update") = [] →
      (mergeRow p row).update_terakhir = p.update_terakhir) := by
  refine ⟨?_, ?_, ?_, ?_, ?_, ?_, ?_, ?_, ?_, ?_, ?_, ?_, ?_, ?_, ?_⟩ <;>
    (intros
     simp [mergeRow, mergeIdentitas, setIf, pyOr, *])

/-! ## Re-resolution lemmas for claims C2 and C3 -/

theorem mergeRow_nama (p : Player) (row : Row) :
    (mergeRow p row).identitas_dasar.nama_lengkap =
      setIf p.identitas_dasar.nama_lengkap (rowGet row (str "player_name")) := rfl

theorem exactFind_candidatesOf_aset_none :
    ∀ (l : AList Player) (K : Str) (w : Player) (n : Str),
      exactFind n (candidatesOf l) = none →
      normalize w.identitas_dasar.nama_lengkap = n →
      exactFind n (candidatesOf (aset l K w)) = some K
  | [], K, w, n, _, hw => by
    show exactFind n [(K, w.identitas_dasar.nama_lengkap)] = some K
    rw [exactFind, if_pos hw]
  | (k0, p0) :: t, K, w, n, hnone, hw => by
    have hcons : candidatesOf ((k0, p0) :: t) =
        (k0, p0.identitas_dasar.nama_lengkap) :: candidatesOf t := rfl
    rw [hcons, exactFind] at hnone
    by_cases h0 : normalize p0.identitas_dasar.nama_lengkap = n
    · rw [if_pos h0] at hnone
      exact Option.noConfusion hnone
    · rw [if_neg h0] at hnone
      rw [aset]
      by_cases hk : k0 = K
      · rw [if_pos hk]
        show exactFind n ((K, w.identitas_dasar.nama_lengkap) :: candidatesOf t) = some K
        rw [exactFind, if_pos hw]
      · rw [if_neg hk]
        show exactFind n ((k0, p0.identitas_dasar.nama_lengkap) ::
          candidatesOf (aset t K w)) = some K
        rw [exactFind, if_neg h0]
        exact exactFind_candidatesOf_aset_none t K w n hnone hw

theorem exactFind_candidatesOf_aset_some :
    ∀ (l : AList Player) (K : Str) (w : Player) (n : Str),
      exactFind n (candidatesOf l) = some K →
      normalize w.identitas_dasar.nama_lengkap = n →
      exactFind n (candidatesOf (aset l K w)) = some K
  | [], K, w, n, hsome, _ => Option.noConfusion hsome
  | (k0, p0) :: t, K, w, n, hsome, hw => by
    have hcons : candidatesOf ((k0, p0) :: t) =
        (k0, p0.identitas_dasar.nama_lengkap) :: candidatesOf t := rfl
    rw [hcons, exactFind] at hsome
    by_cases h0 : normalize p0.identitas_dasar.nama_lengkap = n
    · rw [if_pos h0] at hsome
      have hk : k0 = K := Option.some_injective _ hsome
      rw [aset, if_pos hk]
      show exactFind n ((K, w.identitas_dasar.nama_lengkap) :: candidatesOf t) = some K
      rw [exactFind, if_pos hw]
    · rw [if_neg h0] at hsome
      rw [aset]
      by_cases hk : k0 = K
      · rw [if_pos hk]
        show exactFind n ((K, w.identitas_dasar.nama_lengkap) :: candidatesOf t) = some K
        rw [exactFind, if_pos hw]
      · rw [if_neg hk]
        show exactFind n ((k0, p0.identitas_dasar.nama_lengkap) ::
          candidatesOf (aset t K w)) = some K
        rw [exactFind, if_neg h0]
        exact exactFind_candidatesOf_aset_some t K w n hsome hw

theorem bnm_none_exactFind (name : Str) (cands : List (Str × Str)) (tt lt : ℚ)
    (h : best_name_match name cands tt lt = none) (hn : normalize name ≠ []) :
    exactFind (normalize name) cands = none := by
  rw [best_name_match, if_neg hn] at h
  cases hEx : exactFind (normalize name) cands with
  | none => rfl
  | some k =>
    rw [hEx] at h
    exact Option.noConfusion h

theorem bnm_some_exact_cases (name : Str) (cands : List (Str × Str)) (tt lt : ℚ) (k : Str)
    (h : best_name_match name cands tt lt = some k) (hn : normalize name ≠ []) :
    exactFind (normalize name) cands = some k ∨
      exactFind (normalize name) cands = none := by
  rw [best_name_match, if_neg hn] at h
  cases hEx : exactFind (normalize name) cands with
  | none => exact Or.inr rfl
  | some k0 =>
    rw [hEx] at h
    have hk : k0 = k := by simpa using h
    rw [← hk]
    exact Or.inl rfl

theorem bnm_of_exactFind (name : Str) (cands : List (Str × Str)) (tt lt : ℚ) (k : Str)
    (hn : normalize name ≠ []) (hex : exactFind (normalize name) cands = some k) :
    best_name_match name cands tt lt = some k := by
  rw [best_name_match, if_neg hn, hex]

/-- The display name of a row that carries a non-empty player_name value. -/
theorem rowPName_of_pname (row : Row) (h : rowGet row (str "player_name") ≠ []) :
    rowPName row = pyStrip (rowGet row (str "player_name")) := by
  rw [rowPName, pyOr_of_ne _ _ h]

/-- First ingestion of a row without id but with a player_name value, over
any well-formed store: it succeeds, registers the normalized raw name for
the resolved key, and either that key was the light-normalized index hit,
or the index missed and after the merge the key is the first exact match
for the normalized name. -/
theorem ingest_noid_pname (st : Store) (row : Row)
    (hWF : StoreWF st) (hpid : rowPid row = [])
    (hpn : rowGet row (str "player_name") ≠ [])
    (hnn : normalize (rowGet row (str "player_name")) ≠ []) :
    ∃ st1 K t0, add_or_merge_player st row = some (st1, K) ∧
      st1.nameIdx = aset st.nameIdx (normalize (rowGet row (str "player_name"))) K ∧
      aget st1.master K = some (mergeRow t0 row) ∧
      ((K ∈ akeys st.master ∧ akeys st1.master = akeys st.master) ∨
        akeys st1.master = akeys st.master ++ [K]) ∧
      (aget st.nameIdx (lightNorm row) = some K ∨
        (aget st.nameIdx (lightNorm row) = none ∧
          exactFind (normalize (rowGet row (str "player_name")))
            (candidatesOf st1.master) = some K)) := by
  obtain ⟨hnd, hnI, hdang⟩ := hWF
  have hveq : normalize (rowPName row) = normalize (rowGet row (str "player_name")) := by
    rw [rowPName_of_pname row hpn, normalize_pyStrip]
  have hnn' : normalize (rowPName row) ≠ [] := by rw [hveq]; exact hnn
  have hnama : ∀ t : Player, (mergeRow t row).identitas_dasar.nama_lengkap =
      rowGet row (str "player_name") := fun t => by
    rw [mergeRow_nama, setIf_of_ne _ _ hpn]
  cases hlight : aget st.nameIdx (lightNorm row) with
  | some k =>
    have hrk := resolveKey_idx st row k hpid hlight
    have hmem := hdang _ k hlight
    obtain ⟨target, htg⟩ := Option.isSome_iff_exists.mp (aget_isSome_of_mem _ _ hmem)
    have htg' : aget (resolveKey st row).1.master (resolveKey st row).2 = some target := by
      rw [hrk]
      exact htg
    have hrun := add_or_merge_eq_of_target st row target htg'
    rw [hrk] at hrun
    refine ⟨_, k, target, hrun, ?_, ?_, ?_, Or.inl rfl⟩
    · show (if (mergeRow target row).identitas_dasar.nama_lengkap ≠ [] then _ else _) = _
      rw [hnama target, if_pos hpn]
    · show aget (aset st.master k (mergeRow target row)) k = _
      rw [aget_aset_self]
    · refine Or.inl ⟨hmem, ?_⟩
      show akeys (aset st.master k (mergeRow target row)) = _
      exact akeys_aset_of_mem _ _ _ hmem
  | none =>
    cases hbnm : best_name_match (rowPName row) (candidatesOf st.master)
        (Rat.divInt 3 5) (Rat.divInt 39 50) with
    | some k =>
      have hrk := resolveKey_bnm st row k hpid hlight hbnm
      have hmem : k ∈ akeys st.master := by
        have := best_name_match_mem _ _ _ _ _ hbnm
        rwa [candidatesOf_keys] at this
      obtain ⟨target, htg⟩ := Option.isSome_iff_exists.mp (aget_isSome_of_mem _ _ hmem)
      have htg' : aget (resolveKey st row).1.master (resolveKey st row).2 = some target := by
        rw [hrk]
        exact htg
      have hrun := add_or_merge_eq_of_target st row target htg'
      rw [hrk] at hrun
      refine ⟨_, k, target, hrun, ?_, ?_, ?_, Or.inr ⟨rfl, ?_⟩⟩
      · show (if (mergeRow target row).identitas_dasar.nama_lengkap ≠ [] then _ else _) = _
        rw [hnama target, if_pos hpn]
      · show aget (aset st.master k (mergeRow target row)) k = _
        rw [aget_aset_self]
      · refine Or.inl ⟨hmem, ?_⟩
        show akeys (aset st.master k (mergeRow target row)) = _
        exact akeys_aset_of_mem _ _ _ hmem
      · show exactFind _ (candidatesOf (aset st.master k (mergeRow target row))) = some k
        have hwn : normalize (mergeRow target row).identitas_dasar.nama_lengkap =
            normalize (rowGet row (str "player_name")) := by rw [hnama target]
        rcases bnm_some_exact_cases _ _ _ _ k hbnm hnn' with hEx | hEx
        · rw [hveq] at hEx
          exact exactFind_candidatesOf_aset_some st.master k (mergeRow target row) _ hEx hwn
        · rw [hveq] at hEx
          exact exactFind_candidatesOf_aset_none st.master k (mergeRow target row) _ hEx hwn
    | none =>
      have hrk := resolveKey_new st row hpid hlight hbnm
      have htg' : aget (resolveKey st row).1.master (resolveKey st row).2 =
          some (blankWithId (rowPid row)) := by
        rw [hrk]
        exact aget_aset_self _ _ _
      have hrun := add_or_merge_eq_of_target st row (blankWithId (rowPid row)) htg'
      rw [hrk] at hrun
      have hfresh := freshSlug_not_mem (akeys st.master) (slugBase st.master row)
      refine ⟨_, newKey st.master row, blankWithId (rowPid row), hrun, ?_, ?_, ?_,
        Or.inr ⟨rfl, ?_⟩⟩
      · show (if (mergeRow (blankWithId (rowPid row)) row).identitas_dasar.nama_lengkap ≠ []
            then _ else _) = _
        rw [hnama (blankWithId (rowPid row)), if_pos hpn]
      · show aget (aset (aset st.master (newKey st.master row) (blankWithId (rowPid row)))
          (newKey st.master row) (mergeRow (blankWithId (rowPid row)) row))
            (newKey st.master row) = _
        rw [aset_aset, aget_aset_self]
      · refine Or.inr ?_
        show akeys (aset (aset st.master (newKey st.master row) (blankWithId (rowPid row)))
          (newKey st.master row) (mergeRow (blankWithId (rowPid row)) row)) = _
        rw [aset_aset]
        exact akeys_aset_of_not_mem _ _ _ hfresh
      · show exactFind _ (candidatesOf (aset (aset st.master (newKey st.master row)
          (blankWithId (rowPid row))) (newKey st.master row)
            (mergeRow (blankWithId (rowPid row)) row))) = some (newKey st.master row)
        rw [aset_aset]
        have hwn : normalize (mergeRow (blankWithId (rowPid row))
            row).identitas_dasar.nama_lengkap =
            normalize (rowGet row (str "player_name")) := by
          rw [hnama (blankWithId (rowPid row))]
        have hEx := bnm_none_exactFind _ _ _ _ hbnm hnn'
        rw [hveq] at hEx
        exact exactFind_candidatesOf_aset_none st.master _ _ _ hEx hwn

/-- A second ingestion whose resolution lands on key K of an unchanged
store. -/
theorem ingest_second_at (st1 : Store) (row : Row) (K : Str) (q : Player)
    (hrk2 : resolveKey st1 row = (st1, K))
    (hget : aget st1.master K = some q) :
    add_or_merge_player st1 row = some (postStore st1 K row q, K) := by
  have h := add_or_merge_eq_of_target st1 row q (by rw [hrk2]; exact hget)
  rw [hrk2] at h
  exact h

theorem second_fields_idem (st1 : Store) (row : Row) (K : Str) (t0 : Player)
    (hget1 : aget st1.master K = some (mergeRow t0 row)) :
    ∀ p1 p2, aget st1.master K = some p1 →
      aget (postStore st1 K row (mergeRow t0 row)).master K = some p2 →
      dropOrigins p2 = dropOrigins p1 := by
  intro p1 p2 hp1 hp2
  rw [hget1] at hp1
  have h2 : aget (postStore st1 K row (mergeRow t0 row)).master K =
      some (mergeRow (mergeRow t0 row) row) := aget_aset_self _ _ _
  rw [h2] at hp2
  have e1 := Option.some_injective _ hp1
  have e2 := Option.some_injective _ hp2
  rw [← e1, ← e2]
  exact mergeRow_idem_core t0 row

/-! ## Claim C3: idempotent re-ingestion -/

/-- Claim C3 (amended): over any well-formed store, ingesting the same row
twice resolves both times to the same entity, provided the row carries a
non-empty id, or no id but a player_name value with a non-empty normalized
form; the second ingestion changes none of the entity's field values (only
provenance differs). -/
theorem C3_idempotence_amended (st : Store) (row : Row) (hWF : StoreWF st)
    (hcase : rowPid row ≠ [] ∨
      (rowPid row = [] ∧ rowGet row (str "player_name") ≠ [] ∧
        normalize (rowGet row (str "player_name")) ≠ [])) :
    ∃ st1 st2 K, add_or_merge_player st row = some (st1, K) ∧
      add_or_merge_player st1 row = some (st2, K) ∧
      ∀ p1 p2, aget st1.master K = some p1 → aget st2.master K = some p2 →
        dropOrigins p2 = dropOrigins p1 := by
  rcases hcase with hpid | ⟨hpid, hpn, hnn⟩
  · -- id case: both resolutions land on the id
    have hfirst : ∃ st1 t0, add_or_merge_player st row = some (st1, rowPid row) ∧
        aget st1.master (rowPid row) = some (mergeRow t0 row) := by
      by_cases hs : (aget st.master (rowPid row)).isSome = true
      · obtain ⟨p, hp⟩ := Option.isSome_iff_exists.mp hs
        have hrk := resolveKey_pid_mem st row hpid hs
        have hrun := add_or_merge_eq_of_target st row p (by rw [hrk]; exact hp)
        rw [hrk] at hrun
        exact ⟨_, p, hrun, aget_aset_self _ _ _⟩
      · have hs' : aget st.master (rowPid row) = none := by
          cases hg : aget st.master (rowPid row) with
          | none => rfl
          | some p => rw [hg] at hs; exact absurd rfl hs
        have hrk := resolveKey_pid_new st row hpid hs'
        have hrun := add_or_merge_eq_of_target st row (blankWithId (rowPid row))
          (by rw [hrk]; exact aget_aset_self _ _ _)
        rw [hrk] at hrun
        refine ⟨_, blankWithId (rowPid row), hrun, ?_⟩
        show aget (aset (aset st.master (rowPid row) (blankWithId (rowPid row)))
          (rowPid row) (mergeRow (blankWithId (rowPid row)) row)) (rowPid row) = _
        rw [aset_aset, aget_aset_self]
    obtain ⟨st1, t0, hrun, hget1⟩ := hfirst
    have hrk2 := resolveKey_pid_mem st1 row hpid (by rw [hget1]; rfl)
    refine ⟨st1, _, rowPid row, hrun,
      ingest_second_at st1 row (rowPid row) (mergeRow t0 row) hrk2 hget1, ?_⟩
    intro p1 p2 hp1 hp2
    exact second_fields_idem st1 row (rowPid row) t0 hget1 p1 p2 hp1 hp2
  · -- no-id case: the normalized name finds the entity again
    obtain ⟨st1, K, t0, hrun, hidx1, hget1, _, hdisj⟩ :=
      ingest_noid_pname st row hWF hpid hpn hnn
    have hveq : normalize (rowPName row) = normalize (rowGet row (str "player_name")) := by
      rw [rowPName_of_pname row hpn, normalize_pyStrip]
    have hnn' : normalize (rowPName row) ≠ [] := by rw [hveq]; exact hnn
    have hrk2 : resolveKey st1 row = (st1, K) := by
      by_cases hln : normalize (rowGet row (str "player_name")) = lightNorm row
      · refine resolveKey_idx st1 row K hpid ?_
        rw [hidx1, ← hln, aget_aset_self]
      · have hlight1 : aget st1.nameIdx (lightNorm row) =
            aget st.nameIdx (lightNorm row) := by
          rw [hidx1]
          exact aget_aset_ne _ _ _ _ hln
        rcases hdisj with hsome | ⟨hnone, hEx⟩
        · exact resolveKey_idx st1 row K hpid (by rw [hlight1]; exact hsome)
        · refine resolveKey_bnm st1 row K hpid (by rw [hlight1]; exact hnone) ?_
          refine bnm_of_exactFind _ _ _ _ K hnn' ?_
          rw [hveq]
          exact hEx
    refine ⟨st1, _, K, hrun,
      ingest_second_at st1 row K (mergeRow t0 row) hrk2 hget1, ?_⟩
    intro p1 p2 hp1 hp2
    exact second_fields_idem st1 row K t0 hget1 p1 p2 hp1 hp2

/-- Claim C3, counterexample: ingesting the row with only a "name" column
twice, from the empty store, creates two distinct entities (foo_bar and
foo_bar_2), so re-ingestion is not idempotent for every row. -/
theorem C3_counterexample :
    (runRows emptyStore [[(str "name", str "Foo Bar")], [(str "name", str "Foo Bar")]]).map
        (fun st => akeys st.master) =
      some [str "foo_bar", str "foo_bar_2"] ∧
    rowPid [(str "name", str "Foo Bar")] = [] := by decide

/-- Claim C3, witness: the id-carrying row {player_id: 9, player_name: Ann,
height: 180} ingested twice into the empty store resolves to "9" both
times with identical field values. -/
theorem C3_idempotence_witness :
    StoreWF emptyStore ∧
    (rowPid [(str "player_id", str "9"), (str "player_name", str "Ann"),
        (str "height", str "180")] ≠ [] ∨
      (rowPid [(str "player_id", str "9"), (str "player_name", str "Ann"),
          (str "height", str "180")] = [] ∧
        rowGet [(str "player_id", str "9"), (str "player_name", str "Ann"),
          (str "height", str "180")] (str "player_name") ≠ [] ∧
        normalize (rowGet [(str "player_id", str "9"), (str "player_name", str "Ann"),
          (str "height", str "180")] (str "player_name")) ≠ [])) ∧
    (∃ st1 st2 K,
      add_or_merge_player emptyStore [(str "player_id", str "9"),
        (str "player_name", str "Ann"), (str "height", str "180")] = some (st1, K) ∧
      add_or_merge_player st1 [(str "player_id", str "9"),
        (str "player_name", str "Ann"), (str "height", str "180")] = some (st2, K) ∧
      ∀ p1 p2, aget st1.master K = some p1 → aget st2.master K = some p2 →
        dropOrigins p2 = dropOrigins p1) :=
  ⟨emptyStore_WF, Or.inl (by decide),
    C3_idempotence_amended emptyStore
      [(str "player_id", str "9"), (str "player_name", str "Ann"),
        (str "height", str "180")]
      emptyStore_WF (Or.inl (by decide))⟩

/-! ## Claim C2: exact normalized names merge -/

/-- Claim C2 (amended): from the empty store, two id-less rows whose
display names share the same non-empty normalized form merge into one
single entity, provided the first row supplies its name under the
player_name column (so that a canonical name is recorded); this holds with
no assumption on the token-overlap score. -/
theorem C2_exact_name_amended (r1 r2 : Row)
    (h1pid : rowPid r1 = []) (h2pid : rowPid r2 = [])
    (hpn : rowGet r1 (str "player_name") ≠ [])
    (hnn : normalize (rowGet r1 (str "player_name")) ≠ [])
    (heq : normalize (rowPName r2) = normalize (rowPName r1)) :
    ∃ st1 st2 K, add_or_merge_player emptyStore r1 = some (st1, K) ∧
      add_or_merge_player st1 r2 = some (st2, K) ∧
      akeys st2.master = [K] := by
  obtain ⟨st1, K, t0, hrun, hidx1, hget1, hkeys, hdisj⟩ :=
    ingest_noid_pname emptyStore r1 emptyStore_WF h1pid hpn hnn
  have hveq1 : normalize (rowPName r1) = normalize (rowGet r1 (str "player_name")) := by
    rw [rowPName_of_pname r1 hpn, normalize_pyStrip]
  have hkeys1 : akeys st1.master = [K] := by
    rcases hkeys with ⟨hmem, _⟩ | happ
    · exact absurd hmem (List.not_mem_nil _)
    · rw [happ]
      rfl
  have hEx : exactFind (normalize (rowGet r1 (str "player_name")))
      (candidatesOf st1.master) = some K := by
    rcases hdisj with hsome | ⟨_, hEx⟩
    · exact absurd hsome (by simp [emptyStore, aget])
    · exact hEx
  have hn2 : normalize (rowPName r2) ≠ [] := by
    rw [heq, hveq1]
    exact hnn
  have hrk2 : resolveKey st1 r2 = (st1, K) := by
    by_cases hln : normalize (rowGet r1 (str "player_name")) = lightNorm r2
    · refine resolveKey_idx st1 r2 K h2pid ?_
      rw [hidx1, ← hln, aget_aset_self]
    · have hlight : aget st1.nameIdx (lightNorm r2) = none := by
        rw [hidx1, aget_aset_ne _ _ _ _ hln]
        simp [emptyStore, aget]
      refine resolveKey_bnm st1 r2 K h2pid hlight ?_
      refine bnm_of_exactFind _ _ _ _ K hn2 ?_
      rw [heq, hveq1]
      exact hEx
  refine ⟨st1, _, K, hrun, ingest_second_at st1 r2 K (mergeRow t0 r1) hrk2 hget1, ?_⟩
  show akeys (aset st1.master K (mergeRow (mergeRow t0 r1) r2)) = [K]
  rw [akeys_aset_of_mem _ _ _ (by rw [hkeys1]; exact List.mem_singleton.mpr rfl)]
  exact hkeys1

/-- Claim C2, counterexample: two rows with identical display names under
the "name" column and no ids do not merge — from the empty store they
produce two distinct entities, because an entity whose canonical name was
never set cannot be found by the exact-name pass. -/
theorem C2_counterexample :
    rowPid [(str "name", str "Foo Bar")] = [] ∧
    (runRows emptyStore [[(str "name", str "Foo Bar")], [(str "name", str "Foo Bar")]]).map
        (fun st => (akeys st.master).length) = some 2 := by decide

/-- Claim C2, witness: "Foo  Bar" (player_name) and "foo bar!" (name) share
the normalized form "foo bar"; both resolve to the single entity foo_bar
even though their raw strings differ. -/
theorem C2_exact_name_witness :
    rowPid [(str "player_name", str "Foo  Bar")] = [] ∧
    rowPid [(str "name", str "foo bar!")] = [] ∧
    rowGet [(str "player_name", str "Foo  Bar")] (str "player_name") ≠ [] ∧
    normalize (rowGet [(str "player_name", str "Foo  Bar")] (str "player_name")) ≠ [] ∧
    normalize (rowPName [(str "name", str "foo bar!")]) =
      normalize (rowPName [(str "player_name", str "Foo  Bar")]) ∧
    ∃ st1 st2 K,
      add_or_merge_player emptyStore [(str "player_name", str "Foo  Bar")] =
        some (st1, K) ∧
      add_or_merge_player st1 [(str "name", str "foo bar!")] = some (st2, K) ∧
      akeys st2.master = [K] :=
  ⟨by decide, by decide, by decide, by decide, by decide,
    C2_exact_name_amended [(str "player_name", str "Foo  Bar")]
      [(str "name", str "foo bar!")] (by decide) (by decide) (by decide) (by decide)
      (by decide)⟩

/-! ## Claim C1: the three-row end-to-end scenario -/

def rowA : Row :=
  [(str "id", str "7"), (str "name", str "Lionel Messi"), (str "club", str "Inter Miami")]

def rowB : Row :=
  [(str "id", str ""), (str "name", str "L. Messi"), (str "goals", str "12")]

def rowC : Row :=
  [(str "id", str ""), (str "name", str "Cristiano Ronaldo"), (str "club", str "Al Nassr")]

/-- Claim C1, counterexample: ingesting rows A, B, C produces three
entities, not two — row B does not merge into entity "7" (its name is
under the "name" column, so no canonical name was ever registered for
"7", and a fresh entity l_messi is created) — and entity "7" carries no
club value, since "club" and "goals" are not among the merged aliases. -/
theorem C1_counterexample :
    (runRows emptyStore [rowA, rowB, rowC]).map
        (fun st => ((akeys st.master).length,
          (aget st.master (str "7")).map
            (fun p => (p.identitas_dasar.klub_saat_ini,
              p.identitas_dasar.nama_lengkap)))) =
      some (3, some ([], [])) := by decide

/-- Claim C1 (amended): ingesting A then B then C from the empty store
produces exactly three canonical entities, keyed "7", "l_messi" and
"cristiano_ronaldo".  Entity "7" has player_id "7" but an empty canonical
name and an empty club field (the "name", "club" and "goals" columns are
not merged into any canonical field; they survive only in provenance,
under source tag "unknown"), the other two entities have empty player_id
and empty canonical names, and the normalized-name index stays empty
throughout. -/
theorem C1_scenario_amended :
    (runRows emptyStore [rowA, rowB, rowC]).map (fun st => akeys st.master) =
      some [str "7", str "l_messi", str "cristiano_ronaldo"] ∧
    (runRows emptyStore [rowA, rowB, rowC]).map
        (fun st => (aget st.master (str "7")).map
          (fun p => (p.identitas_dasar.player_id, p.identitas_dasar.nama_lengkap,
            p.identitas_dasar.klub_saat_ini, p.nilai_terkini_eur))) =
      some (some (str "7", [], [], [])) ∧
    (runRows emptyStore [rowA, rowB, rowC]).map
        (fun st => (aget st.master (str "7")).map
          (fun p => p.origins.map (fun kv => (kv.1, kv.2.length)))) =
      some (some [(str "unknown", 1)]) ∧
    (runRows emptyStore [rowA, rowB, rowC]).map
        (fun st => (aget st.master (str "l_messi")).map
          (fun p => (p.identitas_dasar.player_id, p.identitas_dasar.nama_lengkap))) =
      some (some ([], [])) ∧
    (runRows emptyStore [rowA, rowB, rowC]).map
        (fun st => (aget st.master (str "cristiano_ronaldo")).map
          (fun p => (p.identitas_dasar.player_id, p.identitas_dasar.nama_lengkap,
            p.identitas_dasar.klub_saat_ini))) =
      some (some ([], [], [])) ∧
    (runRows emptyStore [rowA, rowB, rowC]).map (fun st => st.nameIdx) = some [] :=
  ⟨by decide, by decide, by decide, by decide, by decide, by decide⟩

/-! ## Claim C5: id priority -/

/-- Claim C5: a row whose id is already a key of the store merges into
exactly that entity — the returned key is the id, the set of keys is
unchanged (no entity is created), and the id's entity receives the row's
field merge — with no assumption about the row's display name. -/
theorem C5_id_priority (st : Store) (row : Row)
    (h1 : rowPid row ≠ []) (h2 : rowPid row ∈ akeys st.master) :
    ∃ st' p, aget st.master (rowPid row) = some p ∧
      add_or_merge_player st row = some (st', rowPid row) ∧
      akeys st'.master = akeys st.master ∧
      aget st'.master (rowPid row) = some (mergeRow p row) := by
  have hs := aget_isSome_of_mem st.master (rowPid row) h2
  obtain ⟨p, hp⟩ := Option.isSome_iff_exists.mp hs
  have hrk := resolveKey_pid_mem st row h1 hs
  have hg : aget (resolveKey st row).1.master (resolveKey st row).2 = some p := by
    rw [hrk]
    exact hp
  have hrun := add_or_merge_eq_of_target st row p hg
  rw [hrk] at hrun
  refine ⟨_, p, hp, hrun, ?_, ?_⟩
  · show akeys (postStore st (rowPid row) row p).master = akeys st.master
    rw [postStore]
    exact akeys_aset_of_mem _ _ _ h2
  · show aget (postStore st (rowPid row) row p).master (rowPid row) = _
    rw [postStore]
    exact aget_aset_self _ _ _

/-- Claim C5, witness: a store holding entity "9" named "Ann"; a row with
id "9" and the unrelated name "Zlatan" still merges into entity "9". -/
theorem C5_id_priority_witness :
    rowPid [(str "player_id", str "9"), (str "player_name", str "Zlatan")] ≠ [] ∧
    rowPid [(str "player_id", str "9"), (str "player_name", str "Zlatan")] ∈
      akeys [(str "9", make_blank_player)] ∧
    ∃ st' p,
      aget [(str "9", make_blank_player)]
        (rowPid [(str "player_id", str "9"), (str "player_name", str "Zlatan")]) = some p ∧
      add_or_merge_player { master := [(str "9", make_blank_player)], nameIdx := [] }
        [(str "player_id", str "9"), (str "player_name", str "Zlatan")] =
        some (st', rowPid [(str "player_id", str "9"), (str "player_name", str "Zlatan")]) ∧
      akeys st'.master = akeys [(str "9", make_blank_player)] ∧
      aget st'.master (rowPid [(str "player_id", str "9"), (str "player_name", str "Zlatan")]) =
        some (mergeRow p [(str "player_id", str "9"), (str "player_name", str "Zlatan")]) :=
  ⟨by decide, by decide,
    C5_id_priority { master := [(str "9", make_blank_player)], nameIdx := [] }
      [(str "player_id", str "9"), (str "player_name", str "Zlatan")]
      (by decide) (by decide)⟩

/-! ## Claim C8: non-clobbering merge -/

/-- Claim C8: when an ingestion resolves to an entity already in the
store, that entity becomes exactly its field-merge with the row — so by
mergeRow_empty_fields a row with an empty value under every alias of a
field leaves that field unchanged — and no other entity is touched. -/
theorem C8_non_clobbering (st : Store) (row : Row) (st' : Store) (k : Str) (p : Player)
    (hrun : add_or_merge_player st row = some (st', k))
    (hp : aget st.master k = some p) :
    aget st'.master k = some (mergeRow p row) ∧
      (∀ k', k' ≠ k → aget st'.master k' = aget st.master k') ∧
      (rowGet row (str "player_name") = [] →
        (mergeRow p row).identitas_dasar.nama_lengkap = p.identitas_dasar.nama_lengkap) ∧
      (rowGet row (str "current_club") = [] →
        (mergeRow p row).identitas_dasar.klub_saat_ini = p.identitas_dasar.klub_saat_ini) ∧
      (rowGet row (str "height") = [] →
        (mergeRow p row).identitas_dasar.tinggi_badan_cm = p.identitas_dasar.tinggi_badan_cm) ∧
      (rowGet row (str "citizenship") = [] → rowGet row (str "nationality") = [] →
        (mergeRow p row).identitas_dasar.kewarganegaraan = p.identitas_dasar.kewarganegaraan) ∧
      (rowGet row (str "market_value_in_eur") = [] → rowGet row (str "market_value") = [] →
        (mergeRow p row).nilai_terkini_eur = p.nilai_terkini_eur) ∧
      (rowGet row (str "last_market_value_update") = [] →
        (mergeRow p row).update_terakhir = p.update_terakhir) := by
  obtain ⟨hk, target, htg, hmaster, hidx⟩ := add_or_merge_shape st row st' k hrun
  obtain ⟨hidx1, hshape⟩ := resolveKey_shape st row
  have htp : target = p := by
    rcases hshape with hsame | ⟨hnone, hcreate⟩
    · rw [hsame] at htg
      rw [htg] at hp
      exact Option.some_injective _ hp
    · rw [← hk] at hnone
      rw [hnone] at hp
      exact Option.noConfusion hp
  subst htp
  have hfields := mergeRow_empty_fields target row
  refine ⟨?_, ?_, hfields.1, hfields.2.2.2.2.2.2.2.2.1, hfields.2.2.2.2.1,
    hfields.2.2.2.2.2.2.2.2.2.2.2.2.1, hfields.2.2.2.2.2.2.2.2.2.2.2.2.2.1,
    hfields.2.2.2.2.2.2.2.2.2.2.2.2.2.2⟩
  · rw [hmaster]
    exact aget_aset_self _ _ _
  · intro k' hk'
    rw [hmaster, aget_aset_ne _ _ _ _ (Ne.symm hk')]
    rcases hshape with hsame | ⟨hnone, hcreate⟩
    · rw [hsame]
    · rw [← hk] at hcreate
      rw [hcreate, aget_aset_ne _ _ _ _ (Ne.symm hk')]

/-- Claim C8, witness: an entity "9" with height "180"; a row with id "9"
and empty height leaves the height at "180" and touches no other key. -/
theorem C8_non_clobbering_witness :
    ∃ st' : Store,
      add_or_merge_player
        { master := [(str "9",
            mergeRow make_blank_player [(str "height", str "180")])], nameIdx := [] }
        [(str "player_id", str "9"), (str "height", str "")] =
        some (st', str "9") ∧
      ∃ p', aget st'.master (str "9") = some p' ∧
        p'.identitas_dasar.tinggi_badan_cm = str "180" := by
  have h := C8_non_clobbering
    { master := [(str "9", mergeRow make_blank_player [(str "height", str "180")])],
      nameIdx := [] }
    [(str "player_id", str "9"), (str "height", str "")]
    { master := [(str "9", mergeRow (mergeRow make_blank_player [(str "height", str "180")])
        [(str "player_id", str "9"), (str "height", str "")])],
      nameIdx := [] }
    (str "9")
    (mergeRow make_blank_player [(str "height", str "180")])
    (by decide) (by decide)
  refine ⟨_, by decide, mergeRow (mergeRow make_blank_player [(str "height", str "180")])
    [(str "player_id", str "9"), (str "height", str "")], h.1, ?_⟩
  rw [h.2.2.2.2.1 (by decide)]
  decide

/-! ## Claim C10: names supplied only under "name" are never registered -/

/-- Claim C10: when a row supplies no player_name value, the merge leaves
the resolved entity's canonical name exactly as it was (empty for a
freshly created entity), and if that name is empty after the merge the
normalized-name index is not changed, so the row's display name is never
registered for exact-name lookup. -/
theorem C10_name_only_column (st : Store) (row : Row) (st' : Store) (k : Str)
    (hrun : add_or_merge_player st row = some (st', k))
    (hpn : rowGet row (str "player_name") = []) :
    ∃ p', aget st'.master k = some p' ∧
      (∀ p, aget st.master k = some p →
        p'.identitas_dasar.nama_lengkap = p.identitas_dasar.nama_lengkap) ∧
      (aget st.master k = none → p'.identitas_dasar.nama_lengkap = []) ∧
      (p'.identitas_dasar.nama_lengkap = [] → st'.nameIdx = st.nameIdx) := by
  obtain ⟨hk, target, htg, hmaster, hidx⟩ := add_or_merge_shape st row st' k hrun
  obtain ⟨hidx1, hshape⟩ := resolveKey_shape st row
  have hnama : (mergeRow target row).identitas_dasar.nama_lengkap =
      target.identitas_dasar.nama_lengkap := (mergeRow_empty_fields target row).1 hpn
  refine ⟨mergeRow target row, ?_, ?_, ?_, ?_⟩
  · rw [hmaster]
    exact aget_aset_self _ _ _
  · intro p hp
    rcases hshape with hsame | ⟨hnone, hcreate⟩
    · rw [hsame] at htg
      rw [htg] at hp
      rw [hnama, Option.some_injective _ hp]
    · rw [← hk] at hnone
      rw [hnone] at hp
      exact Option.noConfusion hp
  · intro hnone'
    rcases hshape with hsame | ⟨hnone, hcreate⟩
    · rw [hsame] at htg
      rw [htg] at hnone'
      exact Option.noConfusion hnone'
    · rw [← hk] at hcreate
      rw [hcreate] at htg
      rw [aget_aset_self _ _ _] at htg
      have : target = blankWithId (rowPid row) := (Option.some_injective _ htg).symm
      rw [hnama, this]
      rfl
  · intro hempty
    rw [hidx, if_neg (by rw [hempty]; exact fun hc => hc rfl), hidx1]

/-- Claim C10, witness: a row carrying only a "name" column creates an
entity whose canonical name stays empty and leaves the index empty. -/
theorem C10_name_only_column_witness :
    ∃ p', aget ((fun stk : Store × Str => stk.1.master)
        ({ master := [(str "foo_bar", mergeRow make_blank_player [(str "name", str "Foo Bar")])],
           nameIdx := [] }, str "foo_bar")) (str "foo_bar") = some p' ∧
      p'.identitas_dasar.nama_lengkap = [] := by
  have h := C10_name_only_column emptyStore [(str "name", str "Foo Bar")]
    { master := [(str "foo_bar", mergeRow make_blank_player [(str "name", str "Foo Bar")])],
      nameIdx := [] }
    (str "foo_bar") (by decide) (by decide)
  obtain ⟨p', hp', hold, hnew, hidx⟩ := h
  exact ⟨p', hp', hnew (by decide)⟩

/-- Claim C4: under the default thresholds, with a non-empty normalized
query and no exactly-matching candidate, a candidate set whose maximal
token-overlap score is exactly 0.6 is matched by the token-overlap pass
(returning the first candidate attaining the maximum), while a maximal
token-overlap score below 0.6 — such as 0.59 — is not matched by the token
pass and evaluation falls through to the edit-distance pass, which
returns a match exactly when the maximal edit-distance ratio is at least
0.78. -/
theorem C4_threshold_boundary (name : Str) (candidates : List (Str × Str))
    (hne : normalize name ≠ [])
    (hex : ∀ kc ∈ candidates, normalize kc.2 ≠ normalize name) :
    (foldMax (fun canon => token_overlap_score (normalize name) canon) candidates 0 =
        Rat.divInt 3 5 →
      best_name_match name candidates (Rat.divInt 3 5) (Rat.divInt 39 50) =
        (candidates.find? (fun kc =>
          decide (token_overlap_score (normalize name) kc.2 = Rat.divInt 3 5))).map
            (fun kc => kc.1) ∧
      (best_name_match name candidates (Rat.divInt 3 5) (Rat.divInt 39 50)).isSome = true) ∧
    (foldMax (fun canon => token_overlap_score (normalize name) canon) candidates 0 <
        Rat.divInt 3 5 →
      best_name_match name candidates (Rat.divInt 3 5) (Rat.divInt 39 50) =
        (if Rat.divInt 39 50 ≤
            foldMax (fun canon => levenshtein_ratio (normalize name) canon) candidates 0
         then (candidates.find? (fun kc =>
            decide (levenshtein_ratio (normalize name) kc.2 =
              foldMax (fun canon => levenshtein_ratio (normalize name) canon)
                candidates 0))).map (fun kc => kc.1)
         else none)) := by
  have hEx := exactFind_eq_none (normalize name) candidates hex
  have hsnd := scanBestAux_snd (fun canon => token_overlap_score (normalize name) canon)
    candidates none 0
  have hlsnd := scanBestAux_snd (fun canon => levenshtein_ratio (normalize name) canon)
    candidates none 0
  constructor
  · intro hT
    have hpos : (0 : ℚ) <
        foldMax (fun canon => token_overlap_score (normalize name) canon) candidates 0 := by
      rw [hT]
      decide
    have hfst := scanBestAux_fst_argmax
      (fun canon => token_overlap_score (normalize name) canon) candidates none 0 hpos
    constructor
    · simp only [best_name_match, if_neg hne, hEx]
      rw [if_pos (show _ ≥ Rat.divInt 3 5 by rw [hsnd, hT])]
      rw [hfst]
      simp only [hT]
    · simp only [best_name_match, if_neg hne, hEx]
      rw [if_pos (show _ ≥ Rat.divInt 3 5 by rw [hsnd, hT])]
      rw [hfst]
      obtain ⟨kc, hm, hs⟩ := foldMax_attained
        (fun canon => token_overlap_score (normalize name) canon) candidates 0 hpos
      have hiso : ∀ o : Option (Str × Str),
          (Option.map (fun kc => kc.1) o).isSome = o.isSome := by
        intro o
        cases o <;> rfl
      rw [hiso, List.find?_isSome]
      exact ⟨kc, hm, by simp [hs]⟩
  · intro hT
    simp only [best_name_match, if_neg hne, hEx]
    rw [if_neg (show ¬ _ ≥ Rat.divInt 3 5 by rw [hsnd]; exact not_le.mpr hT)]
    by_cases hL : Rat.divInt 39 50 ≤
        foldMax (fun canon => levenshtein_ratio (normalize name) canon) candidates 0
    · have hlpos : (0 : ℚ) <
          foldMax (fun canon => levenshtein_ratio (normalize name) canon) candidates 0 :=
        lt_of_lt_of_le (by decide) hL
      have hlfst := scanBestAux_fst_argmax
        (fun canon => levenshtein_ratio (normalize name) canon) candidates none 0 hlpos
      rw [if_pos (show _ ≥ Rat.divInt 39 50 by rw [hlsnd]; exact hL), if_pos hL, hlfst]
    · rw [if_neg (show ¬ _ ≥ Rat.divInt 39 50 by rw [hlsnd]; exact hL), if_neg hL]

/-- Claim C4, witness: the token pass matches "a b c d" against
"a b c e" at token score exactly 3/5, and for the query "a b" against
candidate "a c" (token score 1/3 < 3/5) the cascade falls through to the
edit pass, whose maximal ratio 2/3 is below 0.78, so no match results. -/
theorem C4_threshold_boundary_witness :
    (normalize (str "a b c d") ≠ [] ∧
      (∀ kc ∈ [(str "k1", str "a b c e")], normalize kc.2 ≠ normalize (str "a b c d")) ∧
      foldMax (fun canon => token_overlap_score (normalize (str "a b c d")) canon)
        [(str "k1", str "a b c e")] 0 = Rat.divInt 3 5 ∧
      best_name_match (str "a b c d") [(str "k1", str "a b c e")]
        (Rat.divInt 3 5) (Rat.divInt 39 50) = some (str "k1")) ∧
    (normalize (str "a b") ≠ [] ∧
      (∀ kc ∈ [(str "k2", str "a c")], normalize kc.2 ≠ normalize (str "a b")) ∧
      foldMax (fun canon => token_overlap_score (normalize (str "a b")) canon)
        [(str "k2", str "a c")] 0 < Rat.divInt 3 5 ∧
      best_name_match (str "a b") [(str "k2", str "a c")]
        (Rat.divInt 3 5) (Rat.divInt 39 50) = none) := by
  refine ⟨⟨by decide, by decide, by decide, ?_⟩, by decide, by decide, by decide, ?_⟩
  · have h := (C4_threshold_boundary (str "a b c d") [(str "k1", str "a b c e")]
      (by decide) (by decide)).1 (by decide)
    rw [h.1]
    decide
  · have h := (C4_threshold_boundary (str "a b") [(str "k2", str "a c")]
      (by decide) (by decide)).2 (by decide)
    rw [h]
    decide

end FootballDB
